import Mathlib

/-!
# Repository plugin (`plugins/repository.go`)

A shallow embedding of the repository producer: the directory walk with its
filtering callback (`getFiles`), the per-file read (`getItem`), the dispatch
loop (`getItems`) and the run handler, followed by the properties proved about
them.

The walk is `filepath.Walk` from the Go standard library; it is modelled here
generically over the callback, following the library's control flow
(`Walk`, `walk`, the loop over the directory's names).  The concurrent part
(goroutines, the wait group, the two channels) is modelled as an interleaving
step function: every schedule is a list of thread choices.
-/

namespace Repository

/-! ## Data model -/

/-- Go `error` values.  `skipDir` is the sentinel `filepath.SkipDir` (compared by
identity in Go, hence a constructor of its own), `os` an error coming from the
operating system, `wrapped` the result of `fmt.Errorf("text: %w", inner)`. -/
inductive GoError where
  | skipDir
  | os (msg : String)
  | wrapped (text : String) (inner : GoError)
  deriving DecidableEq, Repr

/-- The part of `os.FileInfo` the walk callback reads. -/
structure FileInfo where
  name : String
  size : Int
  isDir : Bool
  deriving DecidableEq, Repr

/-- A directory tree as the walk sees it.  `file` is any non-directory entry,
`dir` a directory whose names can be read, `unreadableDir` a directory whose
`readDirNames` fails, `broken` a name whose `lstat` fails. -/
inductive FsNode where
  | file (name : String) (size : Int)
  | dir (name : String) (size : Int) (children : List FsNode)
  | unreadableDir (name : String) (size : Int) (err : GoError)
  | broken (name : String) (err : GoError)
  deriving Repr

/-- The name of an entry inside its directory. -/
def FsNode.name : FsNode → String
  | .file n _ => n
  | .dir n _ _ => n
  | .unreadableDir n _ _ => n
  | .broken n _ => n

/-- What `fileInfo.IsDir()` reports for an entry whose `lstat` succeeded. -/
def FsNode.isDir : FsNode → Bool
  | .file _ _ => false
  | .dir _ _ _ => true
  | .unreadableDir _ _ _ => true
  | .broken _ _ => false

/-- How a computation can end the whole process: `fatal` is `log.Fatal()` (which
calls `os.Exit(1)`), `nilDeref` a nil-pointer panic. -/
inductive Abort where
  | fatal (e : GoError)
  | nilDeref
  deriving DecidableEq, Repr

/-- A `filepath.WalkFunc` closing over a state of type `σ`: it receives the path, the
file info (nil when `lstat` failed) and the error, and either ends the process or
returns the new state with its `error` result. -/
abbrev WalkFunc (σ : Type) := σ → String → Option FileInfo → Option GoError → Except Abort (σ × Option GoError)

/-! ## `filepath.Walk` -/

mutual
/-- The recursive `walk(path, info, walkFn)` of `path/filepath`.  On a `broken` node it
is the callback call the callers make when `lstat` fails. -/
def walk {σ : Type} (join : String → String → String) (fn : WalkFunc σ) (path : String) :
    FsNode → σ → Except Abort (σ × Option GoError)
  | .file n s, st => fn st path (some ⟨n, s, false⟩) none
  | .dir n s cs, st =>
      match fn st path (some ⟨n, s, true⟩) none with
      | .error a => .error a
      | .ok (st1, some e1) => .ok (st1, some e1)
      | .ok (st1, none) => walkNames join fn path cs st1
  | .unreadableDir n s e, st => fn st path (some ⟨n, s, true⟩) (some e)
  | .broken _ e, st => fn st path none (some e)
/-- The loop `for _, name := range names` of `walk`. -/
def walkNames {σ : Type} (join : String → String → String) (fn : WalkFunc σ) (path : String) :
    List FsNode → σ → Except Abort (σ × Option GoError)
  | [], st => .ok (st, none)
  | c :: cs, st =>
      match c with
      | .broken n e =>
          match fn st (join path n) none (some e) with
          | .error a => .error a
          | .ok (st1, none) => walkNames join fn path cs st1
          | .ok (st1, some e1) =>
              if e1 = GoError.skipDir then walkNames join fn path cs st1 else .ok (st1, some e1)
      | _ =>
          match walk join fn (join path c.name) c st with
          | .error a => .error a
          | .ok (st1, none) => walkNames join fn path cs st1
          | .ok (st1, some e1) =>
              if c.isDir = true ∧ e1 = GoError.skipDir then walkNames join fn path cs st1
              else .ok (st1, some e1)
end

/-- The exported `filepath.Walk(root, fn)`: the callback on the root when its `lstat`
fails, the recursive walk otherwise, and `SkipDir` turned into nil.  (`SkipAll`, which
newer versions of the library treat alike, is not among the values the callbacks here
return.) -/
def Walk {σ : Type} (join : String → String → String) (fn : WalkFunc σ) (root : String)
    (node : FsNode) (st : σ) : Except Abort (σ × Option GoError) :=
  match walk join fn root node st with
  | .error a => .error a
  | .ok (st1, some e1) => if e1 = GoError.skipDir then .ok (st1, none) else .ok (st1, some e1)
  | .ok (st1, none) => .ok (st1, none)

/-! ## `getFiles`: the callback and the scan -/

/-- The callback passed to `filepath.Walk` in `getFiles` (lines 66 to 80); the state is
`fileList`.  `log.Fatal` ends the process, so nothing after it runs when `err` is not
nil; with a nil `err`, reading a nil `fInfo` would be a nil-pointer panic. -/
def walkFn : WalkFunc (List String) := fun fileList path fInfo err =>
  match err with
  | some e => .error (.fatal e)  -- if err != nil: log.Fatal()
  | none =>
      match fInfo with
      | none => .error .nilDeref
      | some fi =>
          -- if fInfo.Name() == ".git" && fInfo.IsDir(): return filepath.SkipDir
          if fi.name = ".git" ∧ fi.isDir = true then .ok (fileList, some .skipDir)
          -- if fInfo.Size() == 0: return nil
          else if fi.size = 0 then .ok (fileList, none)
          -- if !fInfo.IsDir(): fileList = append(fileList, path); then return err
          else if fi.isDir = false then .ok (fileList ++ [path], err)
          else .ok (fileList, err)

/-- The scan of `getFiles` (lines 65 to 84): the walk with the callback from an empty
`fileList`, then the check of the walk's result.  It gives the candidate list handed to
`getItems`, or ends the process.  The deferred `wg.Done()` and the call of `getItems` are
steps of `stepMain`. -/
def getFiles (join : String → String → String) (root : String) (node : FsNode) :
    Except Abort (List String) :=
  match Walk join walkFn root node [] with
  | .error a => .error a
  | .ok (_, some e) => .error (.fatal e)
  | .ok (fileList, none) => .ok fileList

/-! ## The tree as a set of entries (specification side) -/

/-- An entry of the tree: its path, its metadata and the names of the directories
above it, the root first. -/
structure Entry where
  path : String
  info : FileInfo
  ancestors : List String
  deriving DecidableEq, Repr

mutual
/-- Every entry of the tree whose `lstat` succeeds, in depth-first pre-order, with no
pruning at all. -/
def entriesOf (join : String → String → String) (path : String) (anc : List String) :
    FsNode → List Entry
  | .file n s => [⟨path, ⟨n, s, false⟩, anc⟩]
  | .dir n s cs => ⟨path, ⟨n, s, true⟩, anc⟩ :: entriesIn join path (anc ++ [n]) cs
  | .unreadableDir n s _ => [⟨path, ⟨n, s, true⟩, anc⟩]
  | .broken _ _ => []
/-- The entries below a directory, child after child. -/
def entriesIn (join : String → String → String) (path : String) (anc : List String) :
    List FsNode → List Entry
  | [] => []
  | c :: cs => entriesOf join (join path c.name) anc c ++ entriesIn join path anc cs
end

/-- The entries the scan is meant to keep: not a directory, size not zero, no
directory named `.git` above. -/
def Entry.kept (e : Entry) : Bool :=
  !e.info.isDir && decide (e.info.size ≠ 0) && decide (".git" ∉ e.ancestors)

mutual
/-- The first error the walk hands to its callback: the first entry, in walk order and
outside the subtree of a readable directory named `.git`, whose `lstat` or
`readDirNames` fails. -/
def reportedError : FsNode → Option GoError
  | .file _ _ => none
  | .dir n _ cs => if n = ".git" then none else reportedErrorIn cs
  | .unreadableDir _ _ e => some e
  | .broken _ e => some e
/-- The first reported error among the children of a directory. -/
def reportedErrorIn : List FsNode → Option GoError
  | [] => none
  | c :: cs =>
      match reportedError c with
      | some e => some e
      | none => reportedErrorIn cs
end

/-- The result the callback gives back for an entry it does not abort on. -/
def skipSignal (node : FsNode) : Option GoError :=
  if node.name = ".git" ∧ node.isDir = true then some GoError.skipDir else none

/-- The entries the walk calls its callback on: those with no directory named `.git`
above them. -/
def Entry.visited (e : Entry) : Bool := decide (".git" ∉ e.ancestors)

/-- The callback call made for an entry. -/
def Entry.toVisit (e : Entry) : String × Option FileInfo := (e.path, some e.info)

mutual
/-- The same tree with every directory reporting the size `z`. -/
def setDirSizes (z : Int) : FsNode → FsNode
  | .file n s => .file n s
  | .dir n _ cs => .dir n z (setDirSizesIn z cs)
  | .unreadableDir n _ e => .unreadableDir n z e
  | .broken n e => .broken n e
/-- The children of a directory, every directory among and below them reporting `z`. -/
def setDirSizesIn (z : Int) : List FsNode → List FsNode
  | [] => []
  | c :: cs => setDirSizes z c :: setDirSizesIn z cs
end

/-! ## The walk with its visits recorded -/

/-- A callback call as the walk makes it: the path and the file info handed over. -/
abbrev Visit := String × Option FileInfo

/-- The same callback, which also appends every call it returns from to a log. -/
def traced {σ : Type} (fn : WalkFunc σ) : WalkFunc (σ × List Visit) := fun st path fInfo err =>
  match fn st.1 path fInfo err with
  | .error a => .error a
  | .ok (st1, r) => .ok ((st1, st.2 ++ [(path, fInfo)]), r)

/-- The callback of `getFiles` run over a list of visits, none of them with an error;
a call that would end the process leaves the list as it is. -/
def replay (fileList : List String) : List Visit → List String
  | [] => fileList
  | v :: vs =>
      match walkFn fileList v.1 v.2 none with
      | .ok (fileList1, _) => replay fileList1 vs
      | .error _ => replay fileList vs

/-- A visit whose path the callback appends: a non-directory of non-zero size. -/
def Visit.qualifies (v : Visit) : Bool :=
  match v.2 with
  | some fi => !fi.isDir && decide (fi.size ≠ 0)
  | none => false

/-! ## `getItem` -/

/-- One byte of a file or of a Go string. -/
abbrev Byte := Fin 256


/-- The record sent on the item channel.  `Content` is a Go string, that is a sequence
of bytes: `string(b)` keeps the bytes of `b` as they are. -/
structure Item where
  Content : List Byte
  Source : String
  ID : String
  deriving DecidableEq, Repr

/-- The two results of `getItem`, from the outcome of `os.ReadFile`. -/
def getItemResult (filePath : String) (r : Except GoError (List Byte)) :
    Option Item × Option GoError :=
  match r with
  | .error err => (none, some err)
  | .ok b => (some { Content := b, Source := filePath, ID := filePath }, none)

/-- The end of `getItem` once `os.ReadFile` has returned `r`: the results, and the
wait-group counter after the deferred `wg.Done()`, which runs on both returns. -/
def getItemReturn (wg : Int) (filePath : String) (r : Except GoError (List Byte)) :
    (Option Item × Option GoError) × Int :=
  (getItemResult filePath r, wg - 1)

/-- The function `getItem(wg, filePath)` (lines 103 to 116): the read, then the return. -/
def getItem (readFile : String → Except GoError (List Byte)) (wg : Int) (filePath : String) :
    (Option Item × Option GoError) × Int :=
  getItemReturn wg filePath (readFile filePath)

/-! ## The run handler and the goroutines -/

/-- The method `initialize` of the plugin: the new value of `p.Path` and the error returned. -/
def initialise (getString : Except GoError String) (path : String) : String × Option GoError :=
  match getString with
  | .error err => (path, some (.wrapped "error while getting 'path' flag value" err))
  | .ok directoryPath => (directoryPath, none)

/-- Everything outside the plugin: the value of the `path` flag, the path join of the
platform, the tree below the root at the time of the walk, and the outcome of reading
each path. -/
structure World where
  getString : Except GoError String
  join : String → String → String
  root : FsNode
  readFile : String → Except GoError (List Byte)

/-- Where the run handler and the `getFiles` goroutine it starts stand:
`handler` before the handler runs, `rejected` after it returned on an initialization
error, `walking` after `wg.Add(1)` and `go p.getFiles(...)`, `dispatching rest registered`
inside the loop of `getItems` with `rest` still to go (`registered` when `wg.Add(1)` has
run for the first of them but its goroutine is not started yet), `finished` after
`getFiles` returned and its deferred `wg.Done()` ran, `exited` after the process ended. -/
inductive MainPc where
  | handler
  | rejected
  | walking
  | dispatching (rest : List String) (registered : Bool)
  | finished
  | exited (a : Abort)
  deriving DecidableEq, Repr

/-- Where one goroutine of `getItems` stands: started, `os.ReadFile` returned,
`getItem` returned (its deferred `wg.Done()` has run), result sent. -/
inductive UnitPc where
  | started
  | readDone (r : Except GoError (List Byte))
  | returned (res : Option Item × Option GoError)
  | published

/-- One goroutine of `getItems` with the path it was started on. -/
structure FileUnit where
  filePath : String
  pc : UnitPc

/-- The state of one invocation: the plugin's `Path`, the threads, the wait-group
counter, the number of `Add(1)` and `Done()` calls so far, and what has been sent on the
item and error channels, in sending order. -/
structure State where
  path : String
  main : MainPc
  units : List FileUnit
  counter : Int
  adds : Nat
  dones : Nat
  items : List Item
  errs : List GoError

/-- The state before the run handler is called. -/
def State.init (c0 : Int) (path : String) : State :=
  { path := path, main := .handler, units := [], counter := c0, adds := 0, dones := 0,
    items := [], errs := [] }

/-- One step of the main thread: the run handler (lines 38 to 47), then `getFiles`
(lines 63 to 87) with the loop of `getItems` (lines 89 to 101). -/
def stepMain (w : World) (s : State) : Option State :=
  match s.main with
  | .handler =>
      -- err := p.initialize(cmd)
      match initialise w.getString s.path with
      | (p, some err) =>
          -- channels.Errors <- fmt.Errorf("error while initializing plugin: %w", err); return
          some { s with path := p, main := .rejected,
                        errs := s.errs ++ [.wrapped "error while initializing plugin" err] }
      | (p, none) =>
          -- channels.WaitGroup.Add(1); go p.getFiles(...)
          some { s with path := p, main := .walking, counter := s.counter + 1,
                        adds := s.adds + 1 }
  | .rejected => none
  | .walking =>
      -- filepath.Walk(p.Path, ...) and the check of its result
      match getFiles w.join s.path w.root with
      | .error a => some { s with main := .exited a }
      | .ok fileList => some { s with main := .dispatching fileList false }
  | .dispatching [] _ =>
      -- the loop is over, getItems and getFiles return: deferred wg.Done()
      some { s with main := .finished, counter := s.counter - 1, dones := s.dones + 1 }
  | .dispatching (filePath :: rest) false =>
      -- wg.Add(1)
      some { s with main := .dispatching (filePath :: rest) true, counter := s.counter + 1,
                    adds := s.adds + 1 }
  | .dispatching (filePath :: rest) true =>
      -- go func(filePath string) {...}(filePath)
      some { s with main := .dispatching rest false,
                    units := s.units ++ [{ filePath := filePath, pc := .started }] }
  | .finished => none
  | .exited _ => none

/-- Whether the process has ended. -/
def MainPc.isExited : MainPc → Bool
  | .exited _ => true
  | _ => false

/-- One step of the `i`-th goroutine started by `getItems` (lines 92 to 99): the read
inside `getItem`, the return of `getItem` with its deferred `wg.Done()`, then the send of
the error or of the Item.  No goroutine steps once the process has ended. -/
def stepUnit (w : World) (s : State) (i : Nat) : Option State :=
  if s.main.isExited then none
  else
    match s.units[i]? with
    | none => none
    | some u =>
        match u.pc with
        | .started =>
            -- b, err := os.ReadFile(filePath)
            some { s with units := s.units.set i { u with pc := .readDone (w.readFile u.filePath) } }
        | .readDone r =>
            -- getItem returns; its deferred wg.Done() runs
            some { s with units := s.units.set i
                            { u with pc := .returned (getItemReturn s.counter u.filePath r).1 },
                          counter := (getItemReturn s.counter u.filePath r).2,
                          dones := s.dones + 1 }
        | .returned (_, some err) =>
            -- errs <- err
            some { s with units := s.units.set i { u with pc := .published },
                          errs := s.errs ++ [err] }
        | .returned (some actualFile, none) =>
            -- items <- *actualFile
            some { s with units := s.units.set i { u with pc := .published },
                          items := s.items ++ [actualFile] }
        | .returned (none, none) =>
            -- *actualFile with a nil pointer
            some { s with main := .exited .nilDeref }
        | .published => none

/-- A scheduling choice: the main thread or the `i`-th goroutine. -/
inductive Act where
  | main
  | unit (i : Nat)
  deriving DecidableEq, Repr

/-- One step of the chosen thread, if it can take one. -/
def step (w : World) (s : State) : Act → Option State
  | .main => stepMain w s
  | .unit i => stepUnit w s i

/-- The state after a schedule, if every choice in it could step. -/
def run (w : World) (s : State) : List Act → Option State
  | [] => some s
  | a :: rest =>
      match step w s a with
      | none => none
      | some s1 => run w s1 rest

/-- Whether the deferred `wg.Done()` of a goroutine's `getItem` has run. -/
def UnitPc.isDone : UnitPc → Bool
  | .started => false
  | .readDone _ => false
  | .returned _ => true
  | .published => true

/-- Whether a goroutine has sent its result. -/
def UnitPc.isPublished : UnitPc → Bool
  | .published => true
  | _ => false

/-- A state in which no thread has a step left. -/
def State.quiescent (s : State) : Bool :=
  match s.main with
  | .exited _ => true
  | .rejected => s.units.all (fun u => u.pc.isPublished)
  | .finished => s.units.all (fun u => u.pc.isPublished)
  | _ => false

/-- The Items a candidate list yields: one for each path whose read succeeds. -/
def itemsOf (readFile : String → Except GoError (List Byte)) (fileList : List String) :
    List Item :=
  fileList.filterMap (fun filePath => (getItemResult filePath (readFile filePath)).1)

/-- The errors a candidate list yields: one for each path whose read fails. -/
def errsOf (readFile : String → Except GoError (List Byte)) (fileList : List String) :
    List GoError :=
  fileList.filterMap (fun filePath => (getItemResult filePath (readFile filePath)).2)

/-! ## The invariant of an invocation -/

/-- The `Add(1)` calls made by the main thread up to a program point. -/
def mainAdds : MainPc → Nat
  | .handler => 0
  | .rejected => 0
  | .walking => 1
  | .dispatching _ registered => if registered then 2 else 1
  | .finished => 1
  | .exited _ => 1

/-- The `Done()` calls made by the main thread up to a program point. -/
def mainDones : MainPc → Nat
  | .finished => 1
  | _ => 0

/-- A goroutine holds the result of reading its own path. -/
def unitOk (w : World) (u : FileUnit) : Prop :=
  match u.pc with
  | .started => True
  | .readDone r => r = w.readFile u.filePath
  | .returned res => res = getItemResult u.filePath (w.readFile u.filePath)
  | .published => True

/-- The Item a goroutine has sent, if any. -/
def sentItem (w : World) (u : FileUnit) : Option Item :=
  if u.pc.isPublished then (getItemResult u.filePath (w.readFile u.filePath)).1 else none

/-- The error a goroutine has sent, if any. -/
def sentErr (w : World) (u : FileUnit) : Option GoError :=
  if u.pc.isPublished then (getItemResult u.filePath (w.readFile u.filePath)).2 else none

/-- What is known at each program point of the main thread. -/
def mainOk (w : World) (s : State) : Prop :=
  match s.main with
  | .handler => s.units = [] ∧ s.errs = []
  | .rejected =>
      s.units = [] ∧ ∃ e, w.getString = .error e ∧
        s.errs = [.wrapped "error while initializing plugin"
                    (.wrapped "error while getting 'path' flag value" e)]
  | .walking => s.units = [] ∧ w.getString = .ok s.path ∧ s.errs = []
  | .dispatching rest registered =>
      w.getString = .ok s.path ∧
        getFiles w.join s.path w.root = .ok (s.units.map FileUnit.filePath ++ rest) ∧
        (registered = true → rest ≠ []) ∧ s.errs.Perm (s.units.filterMap (sentErr w))
  | .finished =>
      w.getString = .ok s.path ∧
        getFiles w.join s.path w.root = .ok (s.units.map FileUnit.filePath) ∧
        s.errs.Perm (s.units.filterMap (sentErr w))
  | .exited a =>
      s.units = [] ∧ w.getString = .ok s.path ∧ getFiles w.join s.path w.root = .error a ∧
        s.errs = []

/-- The invariant of the states of one invocation started with the counter at `c0`. -/
structure Inv (w : World) (c0 : Int) (s : State) : Prop where
  counter_eq : s.counter = c0 + s.adds - s.dones
  adds_eq : s.adds = mainAdds s.main + s.units.length
  dones_eq : s.dones = mainDones s.main + s.units.countP (fun u => u.pc.isDone)
  units_ok : ∀ u ∈ s.units, unitOk w u
  items_perm : s.items.Perm (s.units.filterMap (sentItem w))
  main_ok : mainOk w s

/-! ## A bound on the steps left -/

/-- The steps a goroutine of `getItems` has left. -/
def unitMeasure : UnitPc → Nat
  | .started => 3
  | .readDone _ => 2
  | .returned _ => 1
  | .published => 0

/-- The steps left once the candidate list is known, those of the goroutines to come
included. -/
def scanMeasure (w : World) (path : String) : Nat :=
  match getFiles w.join path w.root with
  | .ok fileList => 2 + 5 * fileList.length
  | .error _ => 0

/-- The steps the main thread has left, those of the goroutines it will start included. -/
def mainMeasure (w : World) (s : State) : Nat :=
  match s.main with
  | .handler =>
      match initialise w.getString s.path with
      | (p, none) => 2 + scanMeasure w p
      | (_, some _) => 2
  | .rejected => 0
  | .walking => 1 + scanMeasure w s.path
  | .dispatching rest registered => 2 + 5 * rest.length - (if registered then 1 else 0)
  | .finished => 0
  | .exited _ => 0

/-- A bound on the number of steps a state has left. -/
def measure (w : World) (s : State) : Nat :=
  if s.main.isExited then 0 else mainMeasure w s + (s.units.map (fun u => unitMeasure u.pc)).sum

/-! ## Sample inputs -/

/-- A path join for clean relative paths: the directory, a slash, the name. -/
def sampleJoin (dir name : String) : String := dir ++ "/" ++ name

/-- A root with `a.txt` (5 bytes), `empty.txt` (0 bytes), `.git/config`, and a
directory of reported size 0 holding a non-directory named `.git`. -/
def sampleTree : FsNode :=
  .dir "repo" 4096
    [.file "a.txt" 5, .file "empty.txt" 0, .dir ".git" 4096 [.file "config" 7],
     .dir "sub" 0 [.file ".git" 3]]

/-- A root whose second entry cannot be examined, after one qualifying file. -/
def brokenTree : FsNode :=
  .dir "repo" 4096 [.file "a.txt" 5, .broken "b.txt" (.os "permission denied"), .file "c.txt" 1]

/-- Reads that succeed on `repo/a.txt` (content "hello") and fail on every other path. -/
def sampleRead (filePath : String) : Except GoError (List Byte) :=
  if filePath = "repo/a.txt" then .ok [104, 101, 108, 108, 111] else .error (.os "no such file")

/-- The `path` flag is `repo` and the tree is `sampleTree`. -/
def sampleWorld : World :=
  { getString := .ok "repo", join := sampleJoin, root := sampleTree, readFile := sampleRead }

/-- The `path` flag is `repo` and the walk meets an entry it cannot examine. -/
def brokenWorld : World :=
  { getString := .ok "repo", join := sampleJoin, root := brokenTree, readFile := sampleRead }

/-- The `path` flag cannot be read. -/
def noFlagWorld : World :=
  { getString := .error (.os "flag accessed but not defined: path"), join := sampleJoin,
    root := sampleTree, readFile := sampleRead }

/-- A root directory holding one non-empty file for each name of `l`, in order. -/
def flatTree (l : List String) : FsNode :=
  .dir "root" 1 (l.map (fun p => FsNode.file p 1))

/-! ## Lemmas on the walk -/

mutual
theorem entriesOf_anc (join : String → String → String) (path : String) (anc : List String) :
    ∀ (node : FsNode) (e : Entry), e ∈ entriesOf join path anc node → anc <+: e.ancestors
  | .file n s, e, h => by
      simp [entriesOf] at h; subst h; exact List.prefix_refl _
  | .dir n s cs, e, h => by
      simp [entriesOf] at h
      rcases h with h | h
      · subst h; exact List.prefix_refl _
      · exact (List.prefix_append anc [n]).trans (entriesIn_anc join path (anc ++ [n]) cs e h)
  | .unreadableDir n s x, e, h => by
      simp [entriesOf] at h; subst h; exact List.prefix_refl _
  | .broken n x, e, h => by
      simp [entriesOf] at h
theorem entriesIn_anc (join : String → String → String) (path : String) (anc : List String) :
    ∀ (cs : List FsNode) (e : Entry), e ∈ entriesIn join path anc cs → anc <+: e.ancestors
  | [], e, h => by simp [entriesIn] at h
  | c :: cs, e, h => by
      simp [entriesIn] at h
      rcases h with h | h
      · exact entriesOf_anc join (join path c.name) anc c e h
      · exact entriesIn_anc join path anc cs e h
end

theorem walkFn_ok (st : List String) (path : String) (fi : FileInfo) :
    walkFn st path (some fi) none =
      .ok (st ++ (if fi.isDir = false ∧ fi.size ≠ 0 then [path] else []),
           if fi.name = ".git" ∧ fi.isDir = true then some GoError.skipDir else none) := by
  unfold walkFn
  by_cases h1 : fi.name = ".git" ∧ fi.isDir = true
  · have h2 : fi.isDir = true := h1.2
    simp [h1, h2]
  · by_cases h3 : fi.size = 0
    · simp [h1, h3]
    · by_cases h4 : fi.isDir = false
      · simp [h1, h3, h4]
      · have h5 : fi.isDir = true := by simpa using h4
        have h6 : fi.name ≠ ".git" := fun h => h1 ⟨h, h5⟩
        simp [h3, h5, h6]

theorem filter_kept_nil_of_git (l : List Entry) (anc : List String) (hg : ".git" ∈ anc)
    (h : ∀ e ∈ l, anc <+: e.ancestors) : l.filter Entry.kept = [] := by
  rw [List.filter_eq_nil_iff]
  intro e he hk
  have hmem : ".git" ∈ e.ancestors := (h e he).subset hg
  simp [Entry.kept, hmem] at hk

mutual
theorem walk_ok (join : String → String → String) :
    ∀ (node : FsNode) (st : List String) (path : String) (anc : List String),
      ".git" ∉ anc → reportedError node = none →
      walk join walkFn path node st =
        .ok (st ++ ((entriesOf join path anc node).filter Entry.kept).map Entry.path,
             skipSignal node)
  | .file n s, st, path, anc, hanc, _ => by
      simp only [walk, walkFn_ok, entriesOf, skipSignal, FsNode.name, FsNode.isDir]
      by_cases hs : s = 0 <;> simp [Entry.kept, hs, hanc]
  | .dir n s cs, st, path, anc, hanc, herr => by
      simp only [walk, walkFn_ok, entriesOf, skipSignal, FsNode.name, FsNode.isDir]
      by_cases hn : n = ".git"
      · have hnil : (entriesIn join path (anc ++ [n]) cs).filter Entry.kept = [] :=
          filter_kept_nil_of_git _ (anc ++ [n]) (by simp [hn])
            (fun e he => entriesIn_anc join path (anc ++ [n]) cs e he)
        subst hn
        simp only [and_self, if_true]
        rw [List.filter_cons_of_neg (by simp [Entry.kept]), hnil]
        simp
      · have herr2 : reportedErrorIn cs = none := by simpa [reportedError, hn] using herr
        have hanc2 : ".git" ∉ anc ++ [n] := by
          simp [hanc]; exact fun h => hn h.symm
        have ih := walkNames_ok join cs (st ++ []) path (anc ++ [n]) hanc2 herr2
        simp [hn, Entry.kept, List.filter_cons] at ih ⊢
        exact ih
  | .unreadableDir n s x, st, path, anc, _, herr => by
      simp [reportedError] at herr
  | .broken n x, st, path, anc, _, herr => by
      simp [reportedError] at herr
theorem walkNames_ok (join : String → String → String) :
    ∀ (cs : List FsNode) (st : List String) (path : String) (anc : List String),
      ".git" ∉ anc → reportedErrorIn cs = none →
      walkNames join walkFn path cs st =
        .ok (st ++ ((entriesIn join path anc cs).filter Entry.kept).map Entry.path, none)
  | [], st, path, anc, _, _ => by
      simp [walkNames, entriesIn]
  | c :: cs, st, path, anc, hanc, herr => by
      have hc : reportedError c = none := by
        cases h : reportedError c with
        | none => rfl
        | some e => simp [reportedErrorIn, h] at herr
      have hcs : reportedErrorIn cs = none := by simpa [reportedErrorIn, hc] using herr
      have h1 := walk_ok join c st (join path c.name) anc hanc hc
      have h2 := fun st1 => walkNames_ok join cs st1 path anc hanc hcs
      cases c with
      | broken n x => simp [reportedError] at hc
      | file n s =>
          simp only [walkNames, h1, h2, skipSignal, FsNode.isDir, entriesIn]
          simp
      | dir n s ds =>
          simp only [walkNames, h1, h2, skipSignal, FsNode.isDir, entriesIn]
          by_cases hn : (FsNode.dir n s ds).name = ".git" <;> simp [hn]
      | unreadableDir n s x => simp [reportedError] at hc
end

theorem walkFn_err (st : List String) (path : String) (fInfo : Option FileInfo) (e : GoError) :
    walkFn st path fInfo (some e) = .error (.fatal e) := rfl

mutual
theorem walk_fatal (join : String → String → String) :
    ∀ (node : FsNode) (st : List String) (path : String) (e : GoError),
      reportedError node = some e → walk join walkFn path node st = .error (.fatal e)
  | .file n s, st, path, e, herr => by simp [reportedError] at herr
  | .dir n s cs, st, path, e, herr => by
      by_cases hn : n = ".git"
      · simp [reportedError, hn] at herr
      · have herr2 : reportedErrorIn cs = some e := by simpa [reportedError, hn] using herr
        simp only [walk, walkFn_ok]
        simp [hn, walkNames_fatal join cs st path e herr2]
  | .unreadableDir n s x, st, path, e, herr => by
      simp [reportedError] at herr
      simp [walk, walkFn_err, herr]
  | .broken n x, st, path, e, herr => by
      simp [reportedError] at herr
      simp [walk, walkFn_err, herr]
theorem walkNames_fatal (join : String → String → String) :
    ∀ (cs : List FsNode) (st : List String) (path : String) (e : GoError),
      reportedErrorIn cs = some e → walkNames join walkFn path cs st = .error (.fatal e)
  | [], st, path, e, herr => by simp [reportedErrorIn] at herr
  | c :: cs, st, path, e, herr => by
      cases hc : reportedError c with
      | some x =>
          have hx : x = e := by simpa [reportedErrorIn, hc] using herr
          subst hx
          have h1 := walk_fatal join c st (join path c.name) x hc
          cases c with
          | broken n y =>
              simp [reportedError] at hc
              simp [walkNames, walkFn_err, hc]
          | file n s => simp [walkNames, h1]
          | dir n s ds => simp [walkNames, h1]
          | unreadableDir n s y => simp [walkNames, h1]
      | none =>
          have hcs : reportedErrorIn cs = some e := by simpa [reportedErrorIn, hc] using herr
          have h1 := walk_ok join c st (join path c.name) [] (by simp) hc
          have h2 := fun st1 => walkNames_fatal join cs st1 path e hcs
          cases c with
          | broken n y => simp [reportedError] at hc
          | file n s => simp [walkNames, h1, h2, skipSignal, FsNode.isDir]
          | dir n s ds =>
              simp only [walkNames, h1, h2, skipSignal, FsNode.isDir]
              by_cases hn : (FsNode.dir n s ds).name = ".git" <;> simp [hn]
          | unreadableDir n s y => simp [reportedError] at hc
end

theorem skipSignal_cases (node : FsNode) :
    skipSignal node = none ∨ skipSignal node = some GoError.skipDir := by
  unfold skipSignal
  split <;> simp

theorem Walk_ok (join : String → String → String) (root : String) (node : FsNode)
    (st : List String) (h : reportedError node = none) :
    Walk join walkFn root node st =
      .ok (st ++ ((entriesOf join root [] node).filter Entry.kept).map Entry.path, none) := by
  unfold Walk
  rw [walk_ok join node st root [] (by simp) h]
  rcases skipSignal_cases node with h1 | h1 <;> simp [h1]

theorem Walk_fatal (join : String → String → String) (root : String) (node : FsNode)
    (st : List String) (e : GoError) (h : reportedError node = some e) :
    Walk join walkFn root node st = .error (.fatal e) := by
  unfold Walk
  rw [walk_fatal join node st root e h]

theorem getFiles_ok (join : String → String → String) (root : String) (node : FsNode)
    (h : reportedError node = none) :
    getFiles join root node = .ok (((entriesOf join root [] node).filter Entry.kept).map Entry.path) := by
  unfold getFiles
  rw [Walk_ok join root node [] h]
  simp

theorem getFiles_fatal (join : String → String → String) (root : String) (node : FsNode)
    (e : GoError) (h : reportedError node = some e) :
    getFiles join root node = .error (.fatal e) := by
  unfold getFiles
  rw [Walk_fatal join root node [] e h]

theorem reportedErrorIn_files (l : List String) :
    reportedErrorIn (l.map (fun p => FsNode.file p 1)) = none := by
  induction l with
  | nil => simp [reportedErrorIn]
  | cons p ps ih => simp [reportedErrorIn, reportedError, ih]

theorem entriesIn_files (root : String) (l : List String) :
    ((entriesIn (fun _ n => n) root ["root"] (l.map (fun p => FsNode.file p 1))).filter
      Entry.kept).map Entry.path = l := by
  induction l with
  | nil => simp [entriesIn]
  | cons p ps ih =>
      simp only [List.map_cons, entriesIn, entriesOf, FsNode.name, List.singleton_append]
      rw [List.filter_cons_of_pos (by simp [Entry.kept])]
      simp [ih]

/-- Every list of paths is the candidate list of some tree: the statements made for the
candidate lists the scan can give are statements about all lists. -/
theorem every_list_is_a_candidate_list (l : List String) :
    reportedError (flatTree l) = none ∧
      getFiles (fun _ n => n) "root" (flatTree l) = .ok l := by
  have h : reportedError (flatTree l) = none := by
    simp [flatTree, reportedError, reportedErrorIn_files]
  refine ⟨h, ?_⟩
  rw [getFiles_ok _ _ _ h]
  simp only [flatTree, entriesOf, List.nil_append]
  rw [List.filter_cons_of_neg (by simp [Entry.kept]), entriesIn_files]

/-! ## Lemmas on the recorded walk -/

theorem traced_walkFn_ok (st : List String) (tr : List Visit) (path : String) (fi : FileInfo) :
    traced walkFn (st, tr) path (some fi) none =
      .ok ((st ++ (if fi.isDir = false ∧ fi.size ≠ 0 then [path] else []),
            tr ++ [(path, some fi)]),
           if fi.name = ".git" ∧ fi.isDir = true then some GoError.skipDir else none) := by
  simp [traced, walkFn_ok]

theorem filter_visited_nil_of_git (l : List Entry) (anc : List String) (hg : ".git" ∈ anc)
    (h : ∀ e ∈ l, anc <+: e.ancestors) : l.filter Entry.visited = [] := by
  rw [List.filter_eq_nil_iff]
  intro e he hk
  have hmem : ".git" ∈ e.ancestors := (h e he).subset hg
  simp [Entry.visited, hmem] at hk

mutual
theorem twalk_ok (join : String → String → String) :
    ∀ (node : FsNode) (st : List String) (tr : List Visit) (path : String) (anc : List String),
      ".git" ∉ anc → reportedError node = none →
      walk join (traced walkFn) path node (st, tr) =
        .ok ((st ++ ((entriesOf join path anc node).filter Entry.kept).map Entry.path,
              tr ++ ((entriesOf join path anc node).filter Entry.visited).map Entry.toVisit),
             skipSignal node)
  | .file n s, st, tr, path, anc, hanc, _ => by
      simp only [walk, traced_walkFn_ok, entriesOf, skipSignal, FsNode.name, FsNode.isDir]
      by_cases hs : s = 0 <;> simp [Entry.kept, Entry.visited, Entry.toVisit, hs, hanc]
  | .dir n s cs, st, tr, path, anc, hanc, herr => by
      simp only [walk, traced_walkFn_ok, entriesOf, skipSignal, FsNode.name, FsNode.isDir]
      by_cases hn : n = ".git"
      · have hpre : ∀ e ∈ entriesIn join path (anc ++ [n]) cs, (anc ++ [n]) <+: e.ancestors :=
          fun e he => entriesIn_anc join path (anc ++ [n]) cs e he
        have hnil : (entriesIn join path (anc ++ [n]) cs).filter Entry.kept = [] :=
          filter_kept_nil_of_git _ (anc ++ [n]) (by simp [hn]) hpre
        have hnil2 : (entriesIn join path (anc ++ [n]) cs).filter Entry.visited = [] :=
          filter_visited_nil_of_git _ (anc ++ [n]) (by simp [hn]) hpre
        subst hn
        simp only [and_self, if_true]
        rw [List.filter_cons_of_neg (by simp [Entry.kept]), hnil,
          List.filter_cons_of_pos (by simp [Entry.visited, hanc]), hnil2]
        simp [Entry.toVisit]
      · have herr2 : reportedErrorIn cs = none := by simpa [reportedError, hn] using herr
        have hanc2 : ".git" ∉ anc ++ [n] := by
          simp [hanc]; exact fun h => hn h.symm
        have ih := twalkNames_ok join cs (st ++ []) (tr ++ [(path, some ⟨n, s, true⟩)]) path
          (anc ++ [n]) hanc2 herr2
        rw [List.filter_cons_of_neg (by simp [Entry.kept]),
          List.filter_cons_of_pos (by simp [Entry.visited, hanc])]
        simp [hn, Entry.toVisit] at ih ⊢
        exact ih
  | .unreadableDir n s x, st, tr, path, anc, _, herr => by
      simp [reportedError] at herr
  | .broken n x, st, tr, path, anc, _, herr => by
      simp [reportedError] at herr
theorem twalkNames_ok (join : String → String → String) :
    ∀ (cs : List FsNode) (st : List String) (tr : List Visit) (path : String) (anc : List String),
      ".git" ∉ anc → reportedErrorIn cs = none →
      walkNames join (traced walkFn) path cs (st, tr) =
        .ok ((st ++ ((entriesIn join path anc cs).filter Entry.kept).map Entry.path,
              tr ++ ((entriesIn join path anc cs).filter Entry.visited).map Entry.toVisit),
             none)
  | [], st, tr, path, anc, _, _ => by
      simp [walkNames, entriesIn]
  | c :: cs, st, tr, path, anc, hanc, herr => by
      have hc : reportedError c = none := by
        cases h : reportedError c with
        | none => rfl
        | some e => simp [reportedErrorIn, h] at herr
      have hcs : reportedErrorIn cs = none := by simpa [reportedErrorIn, hc] using herr
      have h1 := twalk_ok join c st tr (join path c.name) anc hanc hc
      have h2 := fun st1 tr1 => twalkNames_ok join cs st1 tr1 path anc hanc hcs
      cases c with
      | broken n x => simp [reportedError] at hc
      | file n s =>
          simp only [walkNames, h1, h2, skipSignal, FsNode.isDir, entriesIn]
          simp
      | dir n s ds =>
          simp only [walkNames, h1, h2, skipSignal, FsNode.isDir, entriesIn]
          by_cases hn : (FsNode.dir n s ds).name = ".git" <;> simp [hn]
      | unreadableDir n s x => simp [reportedError] at hc
end

theorem tracedWalk_ok (join : String → String → String) (root : String) (node : FsNode)
    (h : reportedError node = none) :
    Walk join (traced walkFn) root node ([], []) =
      .ok ((((entriesOf join root [] node).filter Entry.kept).map Entry.path,
            ((entriesOf join root [] node).filter Entry.visited).map Entry.toVisit), none) := by
  unfold Walk
  rw [twalk_ok join node [] [] root [] (by simp) h]
  rcases skipSignal_cases node with h1 | h1 <;> simp [h1]

theorem replay_eq (vs : List Visit) :
    ∀ st : List String, replay st vs = st ++ (vs.filter Visit.qualifies).map Prod.fst := by
  induction vs with
  | nil => intro st; simp [replay]
  | cons v vs ih =>
      intro st
      obtain ⟨p, fi⟩ := v
      cases fi with
      | none => simp [replay, walkFn, ih, Visit.qualifies]
      | some fi =>
          simp only [replay, walkFn_ok, ih]
          by_cases hq : fi.isDir = false ∧ fi.size ≠ 0
          · have : Visit.qualifies (p, some fi) = true := by
              simp [Visit.qualifies, hq.1, hq.2]
            simp [hq, this]
          · have : Visit.qualifies (p, some fi) = false := by
              simp only [Visit.qualifies]
              by_cases h1 : fi.isDir = false
              · have h2 : fi.size = 0 := by
                  by_contra h3; exact hq ⟨h1, h3⟩
                simp [h2]
              · simp at h1; simp [h1]
            simp [hq, this]

theorem kept_eq_qualifying_visits (l : List Entry) :
    (l.filter Entry.kept).map Entry.path =
      (((l.filter Entry.visited).map Entry.toVisit).filter Visit.qualifies).map Prod.fst := by
  induction l with
  | nil => simp
  | cons e l ih =>
      by_cases hv : Entry.visited e = true
      · by_cases hq : Visit.qualifies (Entry.toVisit e) = true
        · have hk : Entry.kept e = true := by
            simp [Entry.kept, Entry.visited, Visit.qualifies, Entry.toVisit] at hv hq ⊢
            exact ⟨hq, hv⟩
          have hq2 : Visit.qualifies (e.path, some e.info) = true := hq
          simp [List.filter_cons, hv, hq2, hk, ih, Entry.toVisit]
        · have hk : ¬ Entry.kept e = true := by
            simp [Entry.kept, Entry.visited, Visit.qualifies, Entry.toVisit] at hv hq ⊢
            intro h1 h2
            exact absurd (hq h1) h2
          have hq2 : ¬ Visit.qualifies (e.path, some e.info) = true := hq
          simp [List.filter_cons, hv, hq2, hk, ih, Entry.toVisit]
      · have hk : ¬ Entry.kept e = true := by
          simp [Entry.kept, Entry.visited] at hv ⊢
          intro _ _; exact hv
        simp [List.filter_cons, hv, hk, ih]

/-! ## Lemmas on the invocation -/

theorem set_decomp {α : Type} (l : List α) :
    ∀ (i : Nat) (u : α), l[i]? = some u →
      ∃ l1 l2, l = l1 ++ u :: l2 ∧ ∀ v, l.set i v = l1 ++ v :: l2 := by
  induction l with
  | nil => intro i u h; simp at h
  | cons x xs ih =>
      intro i u h
      cases i with
      | zero =>
          simp at h
          subst h
          exact ⟨[], xs, by simp, fun v => by simp⟩
      | succ j =>
          simp at h
          obtain ⟨l1, l2, h1, h2⟩ := ih j u (by simpa using h)
          refine ⟨x :: l1, l2, by simp [h1], fun v => ?_⟩
          simp [h2 v]

theorem inv_init (w : World) (c0 : Int) (path : String) : Inv w c0 (State.init c0 path) := by
  constructor <;> simp [State.init, mainAdds, mainDones, mainOk]

theorem inv_stepMain (w : World) (c0 : Int) (s s1 : State) (h : Inv w c0 s)
    (hs : stepMain w s = some s1) : Inv w c0 s1 := by
  obtain ⟨hc, ha, hd, hu, hi, hm⟩ := h
  obtain ⟨path, main, units, counter, adds, dones, items, errs⟩ := s
  simp only at hc ha hd hu hi
  cases main with
  | handler =>
      simp only [mainOk] at hm
      obtain ⟨hm1, hm2⟩ := hm
      subst hm1 hm2
      simp only [stepMain, initialise] at hs
      cases hg : w.getString with
      | error e =>
          simp [hg] at hs
          subst hs
          constructor <;> simp_all [mainAdds, mainDones, mainOk]
      | ok p =>
          simp [hg] at hs
          subst hs
          constructor <;> simp_all [mainAdds, mainDones, mainOk]
  | rejected => simp [stepMain] at hs
  | walking =>
      simp only [mainOk] at hm
      obtain ⟨hm1, hm2, hm3⟩ := hm
      subst hm1 hm3
      simp only [stepMain] at hs
      cases hsc : getFiles w.join path w.root with
      | error a =>
          simp [hsc] at hs
          subst hs
          constructor <;> simp_all [mainAdds, mainDones, mainOk]
      | ok l =>
          simp [hsc] at hs
          subst hs
          constructor <;> simp_all [mainAdds, mainDones, mainOk]
  | dispatching rest reg =>
      simp only [mainOk] at hm
      obtain ⟨hm1, hm2, hm3, hm4⟩ := hm
      cases rest with
      | nil =>
          simp [stepMain] at hs
          subst hs
          constructor <;> simp_all [mainAdds, mainDones, mainOk] <;> omega
      | cons f rest =>
          by_cases hreg : reg = true
          · subst hreg
            simp [stepMain] at hs
            subst hs
            constructor <;>
              simp_all [mainAdds, mainDones, mainOk, unitOk, sentItem, sentErr, UnitPc.isDone,
                UnitPc.isPublished]
            · omega
            · intro u hu2
              rcases hu2 with hu2 | hu2
              · exact hu u hu2
              · subst hu2; trivial
          · have hreg2 : reg = false := by simpa using hreg
            subst hreg2
            simp [stepMain] at hs
            subst hs
            constructor <;> simp_all [mainAdds, mainDones, mainOk] <;> omega
  | finished => simp [stepMain] at hs
  | exited a => simp [stepMain] at hs

theorem mainOk_update (w : World) (path : String) (main : MainPc) (units units1 : List FileUnit)
    (counter counter1 : Int) (adds adds1 dones dones1 : Nat) (items items1 : List Item)
    (errs errs1 : List GoError)
    (hm : mainOk w ⟨path, main, units, counter, adds, dones, items, errs⟩)
    (hne : units ≠ [])
    (hmap : units1.map FileUnit.filePath = units.map FileUnit.filePath)
    (herr : errs.Perm (units.filterMap (sentErr w)) → errs1.Perm (units1.filterMap (sentErr w))) :
    mainOk w ⟨path, main, units1, counter1, adds1, dones1, items1, errs1⟩ := by
  cases main with
  | handler => exact absurd hm.1 hne
  | rejected => exact absurd hm.1 hne
  | walking => exact absurd hm.1 hne
  | exited a => exact absurd hm.1 hne
  | dispatching rest reg =>
      obtain ⟨h1, h2, h3, h4⟩ := hm
      exact ⟨h1, by simpa only [hmap] using h2, h3, herr h4⟩
  | finished =>
      obtain ⟨h1, h2, h4⟩ := hm
      exact ⟨h1, by simpa only [hmap] using h2, herr h4⟩

theorem getItemResult_cases (filePath : String) (r : Except GoError (List Byte)) :
    (∃ b, r = .ok b ∧ getItemResult filePath r = (some ⟨b, filePath, filePath⟩, none)) ∨
    (∃ e, r = .error e ∧ getItemResult filePath r = (none, some e)) := by
  cases r with
  | ok b => exact Or.inl ⟨b, rfl, rfl⟩
  | error e => exact Or.inr ⟨e, rfl, rfl⟩

theorem inv_stepUnit (w : World) (c0 : Int) (s s1 : State) (i : Nat) (h : Inv w c0 s)
    (hs : stepUnit w s i = some s1) : Inv w c0 s1 := by
  obtain ⟨hc, ha, hd, hu, hi, hm⟩ := h
  obtain ⟨path, main, units, counter, adds, dones, items, errs⟩ := s
  simp only at hc ha hd hu hi
  unfold stepUnit at hs
  simp only at hs
  by_cases hex : main.isExited = true
  · simp [hex] at hs
  · simp only [hex] at hs
    cases hget : units[i]? with
    | none => simp [hget] at hs
    | some u =>
        obtain ⟨l1, l2, hl, hset⟩ := set_decomp units i u hget
        simp only [hget, hset] at hs
        have huok : unitOk w u := hu u (by simp [hl])
        have hne : units ≠ [] := by simp [hl]
        obtain ⟨fp, pc⟩ := u
        subst hl
        simp only [List.countP_append, List.countP_cons, List.length_append, List.length_cons,
          List.filterMap_append, List.filterMap_cons] at hc ha hd hi
        cases pc with
        | started =>
            simp at hs
            subst hs
            refine ⟨?_, ?_, ?_, ?_, ?_, ?_⟩
            · exact hc
            · simpa using ha
            · simpa [List.countP_cons, UnitPc.isDone] using hd
            · intro v hv
              simp at hv
              rcases hv with hv | hv | hv
              · exact hu v (by simp [hv])
              · subst hv; simp [unitOk]
              · exact hu v (by simp [hv])
            · simpa [sentItem, UnitPc.isPublished] using hi
            · refine mainOk_update w path main _ _ _ _ _ _ _ _ _ _ _ _ hm hne (by simp) ?_
              intro h4
              simpa [sentErr, UnitPc.isPublished] using h4
        | readDone r =>
            simp [getItemReturn] at hs
            subst hs
            refine ⟨?_, ?_, ?_, ?_, ?_, ?_⟩
            · simp only [UnitPc.isDone] at hd ⊢
              simp at hd ⊢
              omega
            · simpa using ha
            · simp [List.countP_cons, UnitPc.isDone] at hd ⊢
              omega
            · intro v hv
              simp at hv
              rcases hv with hv | hv | hv
              · exact hu v (by simp [hv])
              · subst hv
                simp only [unitOk] at huok ⊢
                rw [huok]
              · exact hu v (by simp [hv])
            · simpa [sentItem, UnitPc.isPublished] using hi
            · refine mainOk_update w path main _ _ _ _ _ _ _ _ _ _ _ _ hm hne (by simp) ?_
              intro h4
              simpa [sentErr, UnitPc.isPublished] using h4
        | returned res =>
            simp only [unitOk] at huok
            rcases getItemResult_cases fp (w.readFile fp) with ⟨b, hb, hres⟩ | ⟨e, he, hres⟩
            · rw [hres] at huok
              subst huok
              simp at hs
              subst hs
              refine ⟨?_, ?_, ?_, ?_, ?_, ?_⟩
              · exact hc
              · simpa using ha
              · simpa [List.countP_cons, UnitPc.isDone] using hd
              · intro v hv
                simp at hv
                rcases hv with hv | hv | hv
                · exact hu v (by simp [hv])
                · subst hv; simp [unitOk]
                · exact hu v (by simp [hv])
              · simp [sentItem, UnitPc.isPublished, hres] at hi ⊢
                exact (List.perm_append_singleton _ items).trans
                  ((hi.cons _).trans List.perm_middle.symm)
              · refine mainOk_update w path main _ _ _ _ _ _ _ _ _ _ _ _ hm hne (by simp) ?_
                intro h4
                simpa [sentErr, UnitPc.isPublished, hres] using h4
            · rw [hres] at huok
              subst huok
              simp at hs
              subst hs
              refine ⟨?_, ?_, ?_, ?_, ?_, ?_⟩
              · exact hc
              · simpa using ha
              · simpa [List.countP_cons, UnitPc.isDone] using hd
              · intro v hv
                simp at hv
                rcases hv with hv | hv | hv
                · exact hu v (by simp [hv])
                · subst hv; simp [unitOk]
                · exact hu v (by simp [hv])
              · simpa [sentItem, UnitPc.isPublished, hres] using hi
              · refine mainOk_update w path main _ _ _ _ _ _ _ _ _ _ _ _ hm hne (by simp) ?_
                intro h4
                simp [sentErr, UnitPc.isPublished, hres] at h4 ⊢
                exact (List.perm_append_singleton _ errs).trans
                  ((h4.cons _).trans List.perm_middle.symm)
        | published => simp at hs

theorem inv_step (w : World) (c0 : Int) (s s1 : State) (a : Act) (h : Inv w c0 s)
    (hs : step w s a = some s1) : Inv w c0 s1 := by
  cases a with
  | main => exact inv_stepMain w c0 s s1 h hs
  | unit i => exact inv_stepUnit w c0 s s1 i h hs

theorem inv_run (w : World) (c0 : Int) (sched : List Act) :
    ∀ (s s1 : State), Inv w c0 s → run w s sched = some s1 → Inv w c0 s1 := by
  induction sched with
  | nil =>
      intro s s1 h hr
      simp [run] at hr
      subst hr
      exact h
  | cons a rest ih =>
      intro s s1 h hr
      simp only [run] at hr
      cases hst : step w s a with
      | none => simp [hst] at hr
      | some s2 =>
          simp only [hst] at hr
          exact ih s2 s1 (inv_step w c0 s s2 a h hst) hr

theorem inv_reach (w : World) (c0 : Int) (path : String) (sched : List Act) (s : State)
    (hr : run w (State.init c0 path) sched = some s) : Inv w c0 s :=
  inv_run w c0 sched _ s (inv_init w c0 path) hr

theorem stepMain_decreases (w : World) (s s1 : State) (hs : stepMain w s = some s1) :
    measure w s1 < measure w s := by
  obtain ⟨path, main, units, counter, adds, dones, items, errs⟩ := s
  cases main with
  | handler =>
      simp only [stepMain, initialise] at hs
      cases hg : w.getString with
      | error e =>
          simp [hg] at hs
          subst hs
          simp [measure, mainMeasure, MainPc.isExited, initialise, hg]
      | ok p =>
          simp [hg] at hs
          subst hs
          simp [measure, mainMeasure, MainPc.isExited, initialise, hg]
  | rejected => simp [stepMain] at hs
  | walking =>
      simp only [stepMain] at hs
      cases hsc : getFiles w.join path w.root with
      | error a =>
          simp [hsc] at hs
          subst hs
          simp [measure, mainMeasure, MainPc.isExited]
      | ok l =>
          simp [hsc] at hs
          subst hs
          simp [measure, mainMeasure, MainPc.isExited, scanMeasure, hsc]
  | dispatching rest reg =>
      cases rest with
      | nil =>
          simp [stepMain] at hs
          subst hs
          cases reg <;> simp [measure, mainMeasure, MainPc.isExited]
      | cons f rest =>
          by_cases hreg : reg = true
          · subst hreg
            simp [stepMain] at hs
            subst hs
            simp [measure, mainMeasure, MainPc.isExited, unitMeasure]
            omega
          · have hreg2 : reg = false := by simpa using hreg
            subst hreg2
            simp [stepMain] at hs
            subst hs
            simp [measure, mainMeasure, MainPc.isExited]
  | finished => simp [stepMain] at hs
  | exited a => simp [stepMain] at hs

theorem stepUnit_decreases (w : World) (s s1 : State) (i : Nat)
    (hs : stepUnit w s i = some s1) : measure w s1 < measure w s := by
  obtain ⟨path, main, units, counter, adds, dones, items, errs⟩ := s
  unfold stepUnit at hs
  simp only at hs
  by_cases hex : main.isExited = true
  · simp [hex] at hs
  · simp only [hex] at hs
    cases hget : units[i]? with
    | none => simp [hget] at hs
    | some u =>
        obtain ⟨l1, l2, hl, hset⟩ := set_decomp units i u hget
        simp only [hget, hset] at hs
        obtain ⟨fp, pc⟩ := u
        subst hl
        cases pc with
        | started =>
            simp at hs
            subst hs
            simp [measure, mainMeasure, hex, unitMeasure]
        | readDone r =>
            simp at hs
            subst hs
            simp [measure, mainMeasure, hex, unitMeasure]
        | returned res =>
            obtain ⟨it, er⟩ := res
            cases er with
            | some e =>
                simp at hs
                subst hs
                simp [measure, mainMeasure, hex, unitMeasure]
            | none =>
                cases it with
                | some x =>
                    simp at hs
                    subst hs
                    simp [measure, mainMeasure, hex, unitMeasure]
                | none =>
                    simp at hs
                    subst hs
                    have hex2 : main.isExited = false := by simpa using hex
                    have h0 : measure w ⟨path, MainPc.exited Abort.nilDeref,
                        l1 ++ { filePath := fp, pc := UnitPc.returned (none, none) } :: l2,
                        counter, adds, dones, items, errs⟩ = 0 := by
                      simp [measure, MainPc.isExited]
                    rw [h0]
                    simp only [measure, hex2]
                    simp [unitMeasure]
        | published => simp at hs

theorem step_decreases (w : World) (s s1 : State) (a : Act) (hs : step w s a = some s1) :
    measure w s1 < measure w s := by
  cases a with
  | main => exact stepMain_decreases w s s1 hs
  | unit i => exact stepUnit_decreases w s s1 i hs

theorem run_bounded (w : World) (sched : List Act) :
    ∀ (s s1 : State), run w s sched = some s1 → sched.length + measure w s1 ≤ measure w s := by
  induction sched with
  | nil =>
      intro s s1 hr
      simp [run] at hr
      subst hr
      simp
  | cons a rest ih =>
      intro s s1 hr
      simp only [run] at hr
      cases hst : step w s a with
      | none => simp [hst] at hr
      | some s2 =>
          simp only [hst] at hr
          have h1 := ih s2 s1 hr
          have h2 := step_decreases w s s2 a hst
          simp only [List.length_cons]
          omega

theorem exists_unpublished (units : List FileUnit)
    (h : units.all (fun u => u.pc.isPublished) = false) :
    ∃ (i : Nat) (u : FileUnit), units[i]? = some u ∧ u.pc.isPublished = false := by
  induction units with
  | nil => simp at h
  | cons x xs ih =>
      by_cases hx : x.pc.isPublished = true
      · have hxs : xs.all (fun u => u.pc.isPublished) = false := by
          simpa [List.all_cons, hx] using h
        obtain ⟨i, u, hi, hu⟩ := ih hxs
        exact ⟨i + 1, u, by rw [List.getElem?_cons_succ]; exact hi, hu⟩
      · exact ⟨0, x, List.getElem?_cons_zero, by simpa using hx⟩

theorem progress (w : World) (s : State) (hq : s.quiescent = false) :
    ∃ a s1, step w s a = some s1 := by
  obtain ⟨path, main, units, counter, adds, dones, items, errs⟩ := s
  have unitStep : main.isExited = false → units.all (fun u => u.pc.isPublished) = false →
      ∃ a s1, step w ⟨path, main, units, counter, adds, dones, items, errs⟩ a = some s1 := by
    intro hex hall
    obtain ⟨i, u, hi, hu⟩ := exists_unpublished units hall
    refine ⟨.unit i, ?_⟩
    obtain ⟨fp, pc⟩ := u
    simp only [step, stepUnit, hex, hi]
    cases pc with
    | started => simp
    | readDone r => simp
    | returned res =>
        obtain ⟨it, er⟩ := res
        cases er with
        | some e => simp
        | none => cases it <;> simp
    | published => simp [UnitPc.isPublished] at hu
  cases main with
  | handler =>
      refine ⟨.main, ?_⟩
      simp only [step, stepMain, initialise]
      cases w.getString <;> simp
  | rejected =>
      exact unitStep rfl (by simpa [State.quiescent] using hq)
  | walking =>
      refine ⟨.main, ?_⟩
      simp only [step, stepMain]
      cases getFiles w.join path w.root <;> simp
  | dispatching rest reg =>
      refine ⟨.main, ?_⟩
      cases rest with
      | nil => simp [step, stepMain]
      | cons f rest => cases reg <;> simp [step, stepMain]
  | finished =>
      exact unitStep rfl (by simpa [State.quiescent] using hq)
  | exited a => simp [State.quiescent] at hq

theorem run_append (w : World) (a b : List Act) :
    ∀ (s s1 : State), run w s a = some s1 → run w s (a ++ b) = run w s1 b := by
  induction a with
  | nil =>
      intro s s1 h
      simp [run] at h
      subst h
      rfl
  | cons x xs ih =>
      intro s s1 h
      simp only [run, List.cons_append] at h ⊢
      cases hst : step w s x with
      | none => simp [hst] at h
      | some s2 =>
          simp only [hst] at h ⊢
          exact ih s2 s1 h

theorem completes_aux (w : World) :
    ∀ (n : Nat) (s : State), measure w s ≤ n →
      ∃ sched s1, run w s sched = some s1 ∧ s1.quiescent = true := by
  intro n
  induction n with
  | zero =>
      intro s hm
      by_cases hq : s.quiescent = true
      · exact ⟨[], s, rfl, hq⟩
      · obtain ⟨a, s1, hst⟩ := progress w s (by simpa using hq)
        have := step_decreases w s s1 a hst
        omega
  | succ n ih =>
      intro s hm
      by_cases hq : s.quiescent = true
      · exact ⟨[], s, rfl, hq⟩
      · obtain ⟨a, s1, hst⟩ := progress w s (by simpa using hq)
        have hlt := step_decreases w s s1 a hst
        obtain ⟨sched, s2, hr, hq2⟩ := ih s1 (by omega)
        exact ⟨a :: sched, s2, by simp [run, hst, hr], hq2⟩

theorem completes (w : World) (s : State) :
    ∃ sched s1, run w s sched = some s1 ∧ s1.quiescent = true :=
  completes_aux w (measure w s) s (le_refl _)

theorem walkFn_dir_size (st : List String) (path : String) (n : String) (s z : Int)
    (err : Option GoError) :
    walkFn st path (some ⟨n, z, true⟩) err = walkFn st path (some ⟨n, s, true⟩) err := by
  cases err with
  | some e => rfl
  | none =>
      simp only [walkFn]
      by_cases hn : n = ".git"
      · simp [hn]
      · by_cases hz : z = 0 <;> by_cases hs : s = 0 <;> simp [hn, hz, hs]

theorem setDirSizes_name (z : Int) (c : FsNode) : (setDirSizes z c).name = c.name := by
  cases c <;> simp [setDirSizes, FsNode.name]

theorem setDirSizes_isDir (z : Int) (c : FsNode) : (setDirSizes z c).isDir = c.isDir := by
  cases c <;> simp [setDirSizes, FsNode.isDir]

mutual
theorem walk_setDirSizes (join : String → String → String) (z : Int) :
    ∀ (node : FsNode) (st : List String) (path : String),
      walk join walkFn path (setDirSizes z node) st = walk join walkFn path node st
  | .file n s, st, path => by simp [setDirSizes]
  | .dir n s cs, st, path => by
      simp only [setDirSizes, walk, walkFn_dir_size st path n s z none]
      have ih := fun st1 => walkNames_setDirSizes join z cs st1 path
      simp only [ih]
  | .unreadableDir n s x, st, path => by
      simp only [setDirSizes, walk, walkFn_dir_size st path n s z (some x)]
  | .broken n x, st, path => by simp [setDirSizes]
theorem walkNames_setDirSizes (join : String → String → String) (z : Int) :
    ∀ (cs : List FsNode) (st : List String) (path : String),
      walkNames join walkFn path (setDirSizesIn z cs) st = walkNames join walkFn path cs st
  | [], st, path => by simp [setDirSizesIn]
  | c :: cs, st, path => by
      have h1 := walk_setDirSizes join z c st (join path c.name)
      have h2 := fun st1 => walkNames_setDirSizes join z cs st1 path
      cases c with
      | broken n x => simp only [setDirSizesIn, setDirSizes, walkNames, h2]
      | file n s => simp only [setDirSizesIn, setDirSizes, walkNames, h2]
      | dir n s ds =>
          simp only [setDirSizes, FsNode.name] at h1
          simp only [setDirSizesIn, setDirSizes, walkNames, FsNode.name, FsNode.isDir, h1, h2]
      | unreadableDir n s x =>
          simp only [setDirSizes, FsNode.name] at h1
          simp only [setDirSizesIn, setDirSizes, walkNames, FsNode.name, FsNode.isDir, h1, h2]
end

theorem getFiles_setDirSizes (join : String → String → String) (z : Int) (root : String)
    (node : FsNode) : getFiles join root (setDirSizes z node) = getFiles join root node := by
  simp only [getFiles, Walk, walk_setDirSizes]

/-! ## The claims -/

/-- C1: when the walk reports no error, the candidate list built by `getFiles` is exactly
the list of paths of the entries that are not directories, have a non-zero size and have
no directory named `.git` above them (the root included), in walk order; hence a path is
in the list if and only if it is the path of such an entry.  The sizes the directories
report play no part (the scan of the same tree with every directory reporting any size
`z`, zero included, is the same), and an entry named `.git` that is not a directory and
has a non-zero size is in the list. -/
theorem getFiles_candidates_iff (join : String → String → String) (root : String)
    (node : FsNode) (h : reportedError node = none) :
    ∃ fileList, getFiles join root node = .ok fileList ∧
      fileList = ((entriesOf join root [] node).filter Entry.kept).map Entry.path ∧
      (∀ p, p ∈ fileList ↔
        ∃ e ∈ entriesOf join root [] node,
          e.path = p ∧ e.info.isDir = false ∧ e.info.size ≠ 0 ∧ ".git" ∉ e.ancestors) ∧
      (∀ z, getFiles join root (setDirSizes z node) = .ok fileList) ∧
      (∀ e ∈ entriesOf join root [] node,
        e.info.name = ".git" → e.info.isDir = false → e.info.size ≠ 0 →
          ".git" ∉ e.ancestors → e.path ∈ fileList) := by
  have hiff : ∀ p, p ∈ ((entriesOf join root [] node).filter Entry.kept).map Entry.path ↔
      ∃ e ∈ entriesOf join root [] node,
        e.path = p ∧ e.info.isDir = false ∧ e.info.size ≠ 0 ∧ ".git" ∉ e.ancestors := by
    intro p
    simp only [List.mem_map, List.mem_filter, Entry.kept, Bool.and_eq_true, Bool.not_eq_true',
      decide_eq_true_eq]
    constructor
    · rintro ⟨e, ⟨he, ⟨h1, h2⟩, h3⟩, hp⟩
      exact ⟨e, he, hp, h1, h2, h3⟩
    · rintro ⟨e, he, hp, h1, h2, h3⟩
      exact ⟨e, ⟨he, ⟨h1, h2⟩, h3⟩, hp⟩
  refine ⟨_, getFiles_ok join root node h, rfl, hiff, ?_, ?_⟩
  · intro z
    rw [getFiles_setDirSizes, getFiles_ok join root node h]
  · intro e he _ h1 h2 h3
    exact (hiff e.path).2 ⟨e, he, rfl, h1, h2, h3⟩

theorem getFiles_candidates_iff_witness :
    reportedError sampleTree = none ∧
    ∃ fileList, getFiles sampleJoin "repo" sampleTree = .ok fileList ∧
      fileList =
        ((entriesOf sampleJoin "repo" [] sampleTree).filter Entry.kept).map Entry.path ∧
      (∀ p, p ∈ fileList ↔
        ∃ e ∈ entriesOf sampleJoin "repo" [] sampleTree,
          e.path = p ∧ e.info.isDir = false ∧ e.info.size ≠ 0 ∧ ".git" ∉ e.ancestors) ∧
      (∀ z, getFiles sampleJoin "repo" (setDirSizes z sampleTree) = .ok fileList) ∧
      (∀ e ∈ entriesOf sampleJoin "repo" [] sampleTree,
        e.info.name = ".git" → e.info.isDir = false → e.info.size ≠ 0 →
          ".git" ∉ e.ancestors → e.path ∈ fileList) :=
  ⟨rfl, getFiles_candidates_iff sampleJoin "repo" sampleTree rfl⟩

/-- The scenario of a root with `a.txt`, an empty file, `.git/config` and a file lost
between listing and reading: one complete run sends the Item of `a.txt`, the read error
of the other candidate, and leaves the counter at zero. -/
theorem sample_run :
    ∃ s, run sampleWorld (State.init 0 "")
        [.main, .main, .main, .main, .main, .main, .main,
         .unit 1, .unit 0, .unit 0, .unit 1, .unit 1, .unit 0] = some s ∧
      s.quiescent = true ∧ s.counter = 0 ∧
      s.items = [{ Content := [104, 101, 108, 108, 111], Source := "repo/a.txt",
                   ID := "repo/a.txt" }] ∧
      s.errs = [.os "no such file"] :=
  ⟨_, rfl, rfl, rfl, rfl, rfl⟩

theorem getFiles_sampleTree : getFiles sampleJoin "repo" sampleTree = .ok ["repo/a.txt", "repo/sub/.git"] := rfl

theorem walkFn_appends (st : List String) (path : String) (fInfo : Option FileInfo)
    (err : Option GoError) (st1 : List String) (r : Option GoError)
    (h : walkFn st path fInfo err = .ok (st1, r)) : st <+: st1 := by
  cases err with
  | some e => simp [walkFn] at h
  | none =>
      cases fInfo with
      | none => simp [walkFn] at h
      | some fi =>
          rw [walkFn_ok] at h
          simp only [Except.ok.injEq, Prod.mk.injEq] at h
          rw [← h.1]
          exact List.prefix_append _ _

theorem count_qualifying (p : String) (l : List Visit) :
    ((l.filter Visit.qualifies).map Prod.fst).count p =
      l.countP (fun v => v.qualifies && decide (v.1 = p)) := by
  induction l with
  | nil => simp
  | cons v l ih =>
      by_cases hq : v.qualifies = true
      · by_cases hp : v.1 = p
        · simp [List.filter_cons, hq, hp, List.countP_cons, ih]
        · have hp2 : ¬ (v.1 == p) = true := by simpa using hp
          simp [List.filter_cons, hq, hp, hp2, List.countP_cons, ih, List.count_cons]
      · simp [List.filter_cons, hq, List.countP_cons, ih]

/-- C9: when the walk reports no error, the callback's visits follow the depth-first
pre-order of the tree, the candidate list is the list of paths of the qualifying visits
in visit order (so it is a subsequence of the visit order and holds a path as many times
as a qualifying entry with that path was visited, once for one visit), and the list is
built by appending only: the callback never removes or reorders what it was given, and
the visits of any prefix of the walk yield a prefix of the final list. -/
theorem candidates_follow_visit_order (join : String → String → String) (root : String)
    (node : FsNode) (h : reportedError node = none) :
    ∃ fileList trace,
      Walk join (traced walkFn) root node ([], []) = .ok ((fileList, trace), none) ∧
      getFiles join root node = .ok fileList ∧
      List.Sublist trace ((entriesOf join root [] node).map Entry.toVisit) ∧
      fileList = (trace.filter Visit.qualifies).map Prod.fst ∧
      List.Sublist fileList (trace.map Prod.fst) ∧
      (∀ p, fileList.count p = trace.countP (fun v => v.qualifies && decide (v.1 = p))) ∧
      (∀ pre suf, trace = pre ++ suf →
        replay [] pre = (pre.filter Visit.qualifies).map Prod.fst ∧
        replay [] pre <+: fileList ∧ replay (replay [] pre) suf = fileList) ∧
      (∀ st path fInfo err st1 r, walkFn st path fInfo err = .ok (st1, r) → st <+: st1) := by
  have hfl := kept_eq_qualifying_visits (entriesOf join root [] node)
  refine ⟨_, _, tracedWalk_ok join root node h, getFiles_ok join root node h, ?_, hfl, ?_, ?_, ?_, ?_⟩
  · exact List.Sublist.map _ (List.filter_sublist _)
  · rw [hfl]
    exact List.Sublist.map _ (List.filter_sublist _)
  · intro p
    rw [hfl]
    exact count_qualifying p _
  · intro pre suf hsplit
    rw [hfl, hsplit]
    refine ⟨by simp [replay_eq], ?_, ?_⟩
    · simp only [replay_eq, List.nil_append, List.filter_append, List.map_append]
      exact List.prefix_append _ _
    · simp only [replay_eq, List.nil_append, List.filter_append, List.map_append]
  · exact walkFn_appends

theorem candidates_follow_visit_order_witness :
    reportedError sampleTree = none ∧
    ∃ fileList trace,
      Walk sampleJoin (traced walkFn) "repo" sampleTree ([], []) = .ok ((fileList, trace), none) ∧
      getFiles sampleJoin "repo" sampleTree = .ok fileList ∧
      List.Sublist trace ((entriesOf sampleJoin "repo" [] sampleTree).map Entry.toVisit) ∧
      fileList = (trace.filter Visit.qualifies).map Prod.fst ∧
      List.Sublist fileList (trace.map Prod.fst) ∧
      (∀ p, fileList.count p = trace.countP (fun v => v.qualifies && decide (v.1 = p))) ∧
      (∀ pre suf, trace = pre ++ suf →
        replay [] pre = (pre.filter Visit.qualifies).map Prod.fst ∧
        replay [] pre <+: fileList ∧ replay (replay [] pre) suf = fileList) ∧
      (∀ st path fInfo err st1 r, walkFn st path fInfo err = .ok (st1, r) → st <+: st1) :=
  ⟨rfl, candidates_follow_visit_order sampleJoin "repo" sampleTree rfl⟩

/-- C10: called with no error, the callback of `getFiles` always returns, and returns
either nil or `filepath.SkipDir`, the latter exactly for a directory named `.git`; so when
the walk reports no error, `filepath.Walk` returns nil and the scan goes on to the
dispatch with the candidate list instead of ending the process. -/
theorem walkFn_returns_nil_or_skipDir (join : String → String → String) (root : String)
    (node : FsNode) (h : reportedError node = none) :
    (∀ (st : List String) (path : String) (fi : FileInfo),
      ∃ st1 r, walkFn st path (some fi) none = .ok (st1, r) ∧
        (r = none ∨ r = some GoError.skipDir) ∧
        (r = some GoError.skipDir ↔ (fi.isDir = true ∧ fi.name = ".git"))) ∧
    ∃ fileList, Walk join walkFn root node [] = .ok (fileList, none) ∧
      getFiles join root node = .ok fileList := by
  constructor
  · intro st path fi
    refine ⟨_, _, walkFn_ok st path fi, ?_, ?_⟩
    · by_cases hg : fi.name = ".git" ∧ fi.isDir = true <;> simp [hg]
    · by_cases hg : fi.name = ".git" ∧ fi.isDir = true
      · simp [hg]
      · simp only [hg, if_false]
        constructor
        · intro hc; cases hc
        · intro hc; exact absurd ⟨hc.2, hc.1⟩ hg
  · exact ⟨_, by simpa using Walk_ok join root node [] h, getFiles_ok join root node h⟩

theorem walkFn_returns_nil_or_skipDir_witness :
    reportedError sampleTree = none ∧
    ((∀ (st : List String) (path : String) (fi : FileInfo),
      ∃ st1 r, walkFn st path (some fi) none = .ok (st1, r) ∧
        (r = none ∨ r = some GoError.skipDir) ∧
        (r = some GoError.skipDir ↔ (fi.isDir = true ∧ fi.name = ".git"))) ∧
    ∃ fileList, Walk sampleJoin walkFn "repo" sampleTree [] = .ok (fileList, none) ∧
      getFiles sampleJoin "repo" sampleTree = .ok fileList) :=
  ⟨rfl, walkFn_returns_nil_or_skipDir sampleJoin "repo" sampleTree rfl⟩

/-- C5: when the read of the path succeeds with bytes `b`, `getItem` returns the Item
with `Content` the bytes `b` as a string and `Source` and `ID` both the given path,
with a nil error; when the read fails with `err`, it returns a nil Item and `err` itself.
On both returns the deferred `wg.Done()` has taken one off the counter. -/
theorem getItem_result (readFile : String → Except GoError (List Byte)) (wg : Int)
    (filePath : String) :
    (∀ b, readFile filePath = .ok b →
      getItem readFile wg filePath =
        ((some { Content := b, Source := filePath, ID := filePath }, none), wg - 1)) ∧
    (∀ err, readFile filePath = .error err →
      getItem readFile wg filePath = ((none, some err), wg - 1)) := by
  constructor
  · intro b hb
    simp [getItem, getItemReturn, getItemResult, hb]
  · intro err he
    simp [getItem, getItemReturn, getItemResult, he]

theorem getItem_result_witness :
    getItem sampleRead 2 "repo/a.txt" =
        ((some { Content := [104, 101, 108, 108, 111], Source := "repo/a.txt",
                 ID := "repo/a.txt" }, none), 1) ∧
    getItem sampleRead 2 "repo/gone.txt" = ((none, some (.os "no such file")), 1) :=
  ⟨(getItem_result sampleRead 2 "repo/a.txt").1 _ rfl,
   (getItem_result sampleRead 2 "repo/gone.txt").2 _ rfl⟩

theorem reach_walk_error (w : World) (c0 : Int) (s : State) (path : String) (a : Abort)
    (hinv : Inv w c0 s) (hflag : w.getString = .ok path)
    (hscan : getFiles w.join path w.root = .error a) :
    (s.main = .handler ∨ s.main = .walking ∨ s.main = .exited a) ∧ s.units = [] ∧
      s.items = [] ∧ s.errs = [] ∧ s.dones = 0 ∧ s.counter = c0 + s.adds := by
  obtain ⟨hc, ha, hd, hu, hi, hm⟩ := hinv
  obtain ⟨p, main, units, counter, adds, dones, items, errs⟩ := s
  simp only at hc ha hd hu hi ⊢
  cases main with
  | handler =>
      obtain ⟨h1, h2⟩ := hm
      simp only at h1 h2
      subst h1 h2
      simp [mainDones] at hd hi
      subst hd
      simp [hi, hc]
  | rejected =>
      obtain ⟨_, e, h2, _⟩ := hm
      rw [hflag] at h2
      cases h2
  | walking =>
      obtain ⟨h1, _, h3⟩ := hm
      simp only at h1 h3
      subst h1 h3
      simp [mainDones] at hd hi
      subst hd
      simp [hi, hc]
  | dispatching rest reg =>
      obtain ⟨h1, h2, _, _⟩ := hm
      simp only at h1 h2
      rw [hflag] at h1
      cases h1
      rw [hscan] at h2
      cases h2
  | finished =>
      obtain ⟨h1, h2, _⟩ := hm
      simp only at h1 h2
      rw [hflag] at h1
      cases h1
      rw [hscan] at h2
      cases h2
  | exited b =>
      obtain ⟨h1, h2, h3, h4⟩ := hm
      simp only at h1 h2 h3 h4
      subst h1 h4
      rw [hflag] at h2
      cases h2
      rw [hscan] at h3
      cases h3
      simp [mainDones] at hd hi
      subst hd
      simp [hi, hc]

/-- C7: the callback ends the process on any error it is handed, whatever the file info
(nil included) and whatever the list collected so far; so when the walk reports an
error for an entry (the first one being `e`), `filepath.Walk` never returns, the scan
ends the process with `e`, and in every state of the invocation no goroutine of
`getItems` exists, nothing has been sent on the item or error channel, and no
`wg.Done()` has run (the unit registered by the run handler stays pending); the
process does reach the exit. -/
theorem walk_error_is_fatal (w : World) (c0 : Int) (path0 path : String) (e : GoError)
    (hflag : w.getString = .ok path) (herr : reportedError w.root = some e) :
    (∀ (st : List String) (p : String) (fInfo : Option FileInfo) (x : GoError),
      walkFn st p fInfo (some x) = .error (.fatal x)) ∧
    (∀ st : List String, Walk w.join walkFn path w.root st = .error (.fatal e)) ∧
    getFiles w.join path w.root = .error (.fatal e) ∧
    (∀ sched s, run w (State.init c0 path0) sched = some s →
      (s.main = .handler ∨ s.main = .walking ∨ s.main = .exited (.fatal e)) ∧
        s.units = [] ∧ s.items = [] ∧ s.errs = [] ∧ s.dones = 0 ∧ s.counter = c0 + s.adds) ∧
    (∃ s, run w (State.init c0 path0) [.main, .main] = some s ∧
      s.main = .exited (.fatal e) ∧ s.quiescent = true) := by
  have hscan := getFiles_fatal w.join path w.root e herr
  refine ⟨walkFn_err, fun st => Walk_fatal w.join path w.root st e herr, hscan, ?_, ?_⟩
  · intro sched s hr
    exact reach_walk_error w c0 s path (.fatal e) (inv_reach w c0 path0 sched s hr) hflag hscan
  · simp [run, step, stepMain, State.init, initialise, hflag, hscan, State.quiescent]

theorem walk_error_is_fatal_witness :
    brokenWorld.getString = .ok "repo" ∧
    reportedError brokenWorld.root = some (.os "permission denied") ∧
    ((∀ (st : List String) (p : String) (fInfo : Option FileInfo) (x : GoError),
      walkFn st p fInfo (some x) = .error (.fatal x)) ∧
    (∀ st : List String, Walk brokenWorld.join walkFn "repo" brokenWorld.root st =
      .error (.fatal (.os "permission denied"))) ∧
    getFiles brokenWorld.join "repo" brokenWorld.root = .error (.fatal (.os "permission denied")) ∧
    (∀ sched s, run brokenWorld (State.init 0 "") sched = some s →
      (s.main = .handler ∨ s.main = .walking ∨
          s.main = .exited (.fatal (.os "permission denied"))) ∧
        s.units = [] ∧ s.items = [] ∧ s.errs = [] ∧ s.dones = 0 ∧ s.counter = 0 + s.adds) ∧
    (∃ s, run brokenWorld (State.init 0 "") [.main, .main] = some s ∧
      s.main = .exited (.fatal (.os "permission denied")) ∧ s.quiescent = true)) :=
  ⟨rfl, rfl, walk_error_is_fatal brokenWorld 0 "" "repo" (.os "permission denied") rfl rfl⟩

theorem reach_flag_error (w : World) (c0 : Int) (s : State) (e : GoError)
    (hinv : Inv w c0 s) (hflag : w.getString = .error e) :
    (s.main = .handler ∨ s.main = .rejected) ∧ s.units = [] ∧ s.adds = 0 ∧ s.dones = 0 ∧
      s.counter = c0 ∧ s.items = [] ∧ (s.main = .handler → s.errs = []) ∧
      (s.main = .rejected →
        s.errs = [.wrapped "error while initializing plugin"
                    (.wrapped "error while getting 'path' flag value" e)]) := by
  obtain ⟨hc, ha, hd, hu, hi, hm⟩ := hinv
  obtain ⟨p, main, units, counter, adds, dones, items, errs⟩ := s
  simp only at hc ha hd hu hi ⊢
  cases main with
  | handler =>
      obtain ⟨h1, h2⟩ := hm
      simp only at h1 h2
      subst h1 h2
      simp [mainDones, mainAdds] at hd hi ha
      subst hd ha
      simp [hi, hc]
  | rejected =>
      obtain ⟨h1, x, h2, h3⟩ := hm
      simp only at h1 h3
      rw [hflag] at h2
      cases h2
      subst h1 h3
      simp [mainDones, mainAdds] at hd hi ha
      subst hd ha
      simp [hi, hc]
  | walking =>
      obtain ⟨_, h2, _⟩ := hm
      rw [hflag] at h2
      cases h2
  | dispatching rest reg =>
      obtain ⟨h1, _⟩ := hm
      rw [hflag] at h1
      cases h1
  | finished =>
      obtain ⟨h1, _⟩ := hm
      rw [hflag] at h1
      cases h1
  | exited b =>
      obtain ⟨_, h2, _⟩ := hm
      rw [hflag] at h2
      cases h2

/-- C8 as stated fails: with a `path` flag that cannot be read, the run handler sends an
error on the error channel. -/
theorem init_error_publishes_nothing_refuted :
    ¬ (∀ (w : World) (c0 : Int) (path0 : String) (e : GoError) (sched : List Act) (s : State),
        w.getString = .error e → run w (State.init c0 path0) sched = some s →
          s.units = [] ∧ s.adds = 0 ∧ s.items = [] ∧ s.errs = []) := by
  intro h
  have h1 := (h noFlagWorld 0 "" (.os "flag accessed but not defined: path") [.main] _ rfl rfl).2.2.2
  simp at h1

/-- C8, amended: when `initialize` returns an error, the run handler returns without
starting the walk: no goroutine is started, nothing is registered on the wait group (the
counter keeps its value), no Item is sent, and the only thing sent on the error channel
is, once, the initialization error wrapped by the handler. -/
theorem init_error_publishes_only_the_error (w : World) (c0 : Int) (path0 : String)
    (e : GoError) (hflag : w.getString = .error e) :
    (∀ sched s, run w (State.init c0 path0) sched = some s →
      (s.main = .handler ∨ s.main = .rejected) ∧ s.units = [] ∧ s.adds = 0 ∧ s.dones = 0 ∧
        s.counter = c0 ∧ s.items = [] ∧ (s.main = .handler → s.errs = []) ∧
        (s.main = .rejected →
          s.errs = [.wrapped "error while initializing plugin"
                      (.wrapped "error while getting 'path' flag value" e)])) ∧
    (∃ s, run w (State.init c0 path0) [.main] = some s ∧ s.main = .rejected ∧
      s.quiescent = true) := by
  constructor
  · intro sched s hr
    exact reach_flag_error w c0 s e (inv_reach w c0 path0 sched s hr) hflag
  · simp [run, step, stepMain, State.init, initialise, hflag, State.quiescent]

theorem init_error_publishes_only_the_error_witness :
    noFlagWorld.getString = .error (.os "flag accessed but not defined: path") ∧
    ((∀ sched s, run noFlagWorld (State.init 0 "") sched = some s →
      (s.main = .handler ∨ s.main = .rejected) ∧ s.units = [] ∧ s.adds = 0 ∧ s.dones = 0 ∧
        s.counter = 0 ∧ s.items = [] ∧ (s.main = .handler → s.errs = []) ∧
        (s.main = .rejected →
          s.errs = [.wrapped "error while initializing plugin"
                      (.wrapped "error while getting 'path' flag value"
                        (.os "flag accessed but not defined: path"))])) ∧
    (∃ s, run noFlagWorld (State.init 0 "") [.main] = some s ∧ s.main = .rejected ∧
      s.quiescent = true)) :=
  ⟨rfl, init_error_publishes_only_the_error noFlagWorld 0 ""
    (.os "flag accessed but not defined: path") rfl⟩

theorem countP_le_all (units : List FileUnit) :
    units.countP (fun u => u.pc.isDone) = units.length ↔ ∀ u ∈ units, u.pc.isDone = true := by
  rw [List.countP_eq_length]

theorem published_isDone (pc : UnitPc) (h : pc.isPublished = true) : pc.isDone = true := by
  cases pc <;> simp [UnitPc.isPublished, UnitPc.isDone] at h ⊢

/-- What the invariant gives in a state reached after a successful scan. -/
theorem reach_scan_ok (w : World) (c0 : Int) (s : State) (path : String)
    (fileList : List String) (hinv : Inv w c0 s) (hflag : w.getString = .ok path)
    (hscan : getFiles w.join path w.root = .ok fileList) :
    s.main = .handler ∨ s.main = .walking ∨
      (∃ rest reg, s.main = .dispatching rest reg ∧
        fileList = s.units.map FileUnit.filePath ++ rest ∧ (reg = true → rest ≠ [])) ∨
      (s.main = .finished ∧ fileList = s.units.map FileUnit.filePath) := by
  obtain ⟨hc, ha, hd, hu, hi, hm⟩ := hinv
  obtain ⟨p, main, units, counter, adds, dones, items, errs⟩ := s
  cases main with
  | handler => exact Or.inl rfl
  | rejected =>
      obtain ⟨_, e, h2, _⟩ := hm
      rw [hflag] at h2
      cases h2
  | walking => exact Or.inr (Or.inl rfl)
  | dispatching rest reg =>
      obtain ⟨h1, h2, h3, _⟩ := hm
      simp only at h1 h2
      rw [hflag] at h1
      cases h1
      rw [hscan] at h2
      cases h2
      exact Or.inr (Or.inr (Or.inl ⟨rest, reg, rfl, rfl, h3⟩))
  | finished =>
      obtain ⟨h1, h2, _⟩ := hm
      simp only at h1 h2
      rw [hflag] at h1
      cases h1
      rw [hscan] at h2
      cases h2
      exact Or.inr (Or.inr (Or.inr ⟨rfl, rfl⟩))
  | exited b =>
      obtain ⟨_, h2, h3, _⟩ := hm
      simp only at h2 h3
      rw [hflag] at h2
      cases h2
      rw [hscan] at h3
      cases h3

theorem final_scan_ok (w : World) (c0 : Int) (s : State) (path : String)
    (fileList : List String) (hinv : Inv w c0 s) (hflag : w.getString = .ok path)
    (hscan : getFiles w.join path w.root = .ok fileList) (hq : s.quiescent = true) :
    s.main = .finished ∧ s.units.map FileUnit.filePath = fileList ∧
      (∀ u ∈ s.units, u.pc.isPublished = true) := by
  rcases reach_scan_ok w c0 s path fileList hinv hflag hscan with h | h | ⟨r, g, h, _⟩ | ⟨h, h2⟩
  · simp [State.quiescent, h] at hq
  · simp [State.quiescent, h] at hq
  · simp [State.quiescent, h] at hq
  · refine ⟨h, h2.symm, ?_⟩
    simpa [State.quiescent, h] using hq

/-- C3: for a candidate list of length `N` (read outcomes arbitrary), every run of the
invocation is at most `5 * N + 4` steps long and can be carried on to a state where no
thread has a step left; in every such state exactly `N` goroutines were started, one for
each path of the list in order, `Add(1)` was called `N + 1` times (once by the run
handler, once for each goroutine), `Done()` was called `N + 1` times (once by `getFiles`,
once by the `getItem` of each goroutine), and the counter is back at its starting value. -/
theorem counter_balanced (w : World) (c0 : Int) (path0 path : String)
    (fileList : List String) (hflag : w.getString = .ok path)
    (hscan : getFiles w.join path w.root = .ok fileList) :
    (∀ sched s, run w (State.init c0 path0) sched = some s →
      sched.length ≤ 5 * fileList.length + 4 ∧
      ∃ more s1, run w s more = some s1 ∧ s1.quiescent = true) ∧
    (∀ sched s, run w (State.init c0 path0) sched = some s → s.quiescent = true →
      s.units.length = fileList.length ∧ s.units.map FileUnit.filePath = fileList ∧
      s.adds = 1 + s.units.length ∧ s.adds = fileList.length + 1 ∧
      s.dones = 1 + s.units.countP (fun u => u.pc.isDone) ∧ s.dones = fileList.length + 1 ∧
      s.counter = c0) := by
  constructor
  · intro sched s hr
    refine ⟨?_, completes w s⟩
    have hb := run_bounded w sched _ s hr
    have hm : measure w (State.init c0 path0) = 5 * fileList.length + 4 := by
      simp [measure, mainMeasure, State.init, MainPc.isExited, initialise, hflag, scanMeasure,
        hscan]
      omega
    omega
  · intro sched s hr hq
    have hinv := inv_reach w c0 path0 sched s hr
    obtain ⟨hmain, hmap, hpub⟩ := final_scan_ok w c0 s path fileList hinv hflag hscan hq
    have hlen : s.units.length = fileList.length := by
      rw [← hmap, List.length_map]
    have hdone : s.units.countP (fun u => u.pc.isDone) = s.units.length :=
      (countP_le_all s.units).2 (fun u hu => published_isDone u.pc (hpub u hu))
    have ha := hinv.adds_eq
    have hd := hinv.dones_eq
    have hc := hinv.counter_eq
    rw [hmain] at ha hd
    simp only [mainAdds, mainDones] at ha hd
    refine ⟨hlen, hmap, ha, by omega, hd, by omega, by omega⟩

theorem counter_balanced_witness :
    sampleWorld.getString = .ok "repo" ∧
    getFiles sampleWorld.join "repo" sampleWorld.root = .ok ["repo/a.txt", "repo/sub/.git"] ∧
    ((∀ sched s, run sampleWorld (State.init 0 "") sched = some s →
      sched.length ≤ 5 * ["repo/a.txt", "repo/sub/.git"].length + 4 ∧
      ∃ more s1, run sampleWorld s more = some s1 ∧ s1.quiescent = true) ∧
    (∀ sched s, run sampleWorld (State.init 0 "") sched = some s → s.quiescent = true →
      s.units.length = ["repo/a.txt", "repo/sub/.git"].length ∧
      s.units.map FileUnit.filePath = ["repo/a.txt", "repo/sub/.git"] ∧
      s.adds = 1 + s.units.length ∧ s.adds = ["repo/a.txt", "repo/sub/.git"].length + 1 ∧
      s.dones = 1 + s.units.countP (fun u => u.pc.isDone) ∧
      s.dones = ["repo/a.txt", "repo/sub/.git"].length + 1 ∧
      s.counter = 0)) :=
  ⟨rfl, rfl, counter_balanced sampleWorld 0 "" "repo" ["repo/a.txt", "repo/sub/.git"] rfl rfl⟩

theorem errs_perm_of_flag_ok (w : World) (c0 : Int) (s : State) (path : String)
    (hinv : Inv w c0 s) (hflag : w.getString = .ok path) :
    s.errs.Perm (s.units.filterMap (sentErr w)) := by
  obtain ⟨hc, ha, hd, hu, hi, hm⟩ := hinv
  obtain ⟨p, main, units, counter, adds, dones, items, errs⟩ := s
  cases main with
  | handler =>
      obtain ⟨h1, h2⟩ := hm
      simp only at h1 h2 ⊢
      subst h1 h2
      simp
  | rejected =>
      obtain ⟨_, e, h2, _⟩ := hm
      rw [hflag] at h2
      cases h2
  | walking =>
      obtain ⟨h1, _, h3⟩ := hm
      simp only at h1 h3 ⊢
      subst h1 h3
      simp
  | dispatching rest reg => exact hm.2.2.2
  | finished => exact hm.2.2
  | exited b =>
      obtain ⟨h1, _, _, h4⟩ := hm
      simp only at h1 h4 ⊢
      subst h1 h4
      simp

theorem sent_length_le (w : World) (units : List FileUnit) :
    (units.filterMap (sentItem w)).length + (units.filterMap (sentErr w)).length ≤
      units.length := by
  induction units with
  | nil => simp
  | cons u us ih =>
      by_cases hp : u.pc.isPublished = true
      · rcases getItemResult_cases u.filePath (w.readFile u.filePath) with
          ⟨b, _, hres⟩ | ⟨e, _, hres⟩
        · simp [List.filterMap_cons, sentItem, sentErr, hp, hres]
          omega
        · simp [List.filterMap_cons, sentItem, sentErr, hp, hres]
          omega
      · simp [List.filterMap_cons, sentItem, sentErr, hp]
        omega

theorem published_items (w : World) (units : List FileUnit)
    (h : ∀ u ∈ units, u.pc.isPublished = true) :
    units.filterMap (sentItem w) = itemsOf w.readFile (units.map FileUnit.filePath) ∧
    units.filterMap (sentErr w) = errsOf w.readFile (units.map FileUnit.filePath) := by
  induction units with
  | nil => simp [itemsOf, errsOf]
  | cons u us ih =>
      have hu : u.pc.isPublished = true := h u (by simp)
      obtain ⟨ih1, ih2⟩ := ih (fun v hv => h v (by simp [hv]))
      simp only [itemsOf, errsOf] at ih1 ih2
      simp [itemsOf, errsOf, List.filterMap_cons, sentItem, sentErr, hu, ih1, ih2]

theorem itemsOf_errsOf_length (readFile : String → Except GoError (List Byte))
    (l : List String) : (itemsOf readFile l).length + (errsOf readFile l).length = l.length := by
  induction l with
  | nil => simp [itemsOf, errsOf]
  | cons p ps ih =>
      simp only [itemsOf, errsOf] at ih
      rcases getItemResult_cases p (readFile p) with ⟨b, _, hres⟩ | ⟨e, _, hres⟩
      · simp [itemsOf, errsOf, List.filterMap_cons, hres]
        omega
      · simp [itemsOf, errsOf, List.filterMap_cons, hres]
        omega

theorem mem_itemsOf (readFile : String → Except GoError (List Byte)) (l : List String)
    (it : Item) :
    it ∈ itemsOf readFile l ↔
      ∃ p ∈ l, ∃ b, readFile p = .ok b ∧ it = { Content := b, Source := p, ID := p } := by
  simp only [itemsOf, List.mem_filterMap]
  constructor
  · rintro ⟨p, hp, h⟩
    rcases getItemResult_cases p (readFile p) with ⟨b, hb, hres⟩ | ⟨e, _, hres⟩
    · rw [hres] at h
      simp at h
      exact ⟨p, hp, b, hb, h.symm⟩
    · rw [hres] at h
      simp at h
  · rintro ⟨p, hp, b, hb, rfl⟩
    exact ⟨p, hp, by simp [getItemResult, hb]⟩

theorem mem_errsOf (readFile : String → Except GoError (List Byte)) (l : List String)
    (p : String) (e : GoError) (hp : p ∈ l) (he : readFile p = .error e) :
    e ∈ errsOf readFile l := by
  simp only [errsOf, List.mem_filterMap]
  exact ⟨p, hp, by simp [getItemResult, he]⟩

theorem itemsOf_remove (readFile : String → Except GoError (List Byte))
    (l1 l2 : List String) (p : String) (e : GoError) (he : readFile p = .error e) :
    itemsOf readFile (l1 ++ p :: l2) = itemsOf readFile (l1 ++ l2) := by
  simp [itemsOf, List.filterMap_append, List.filterMap_cons, getItemResult, he]

/-- C4: for a candidate list and any outcome of the reads, at no moment have more Items
and errors been sent than there are paths, every run can be carried on to a state where
no thread has a step left, and in such a state the Items sent are, up to order, one
Item for each path whose read succeeded, the errors sent are, up to order, the read
error of each path whose read failed, and their numbers add up to the length of the
list; for each path either its read succeeded and its Item was sent, or its read failed,
its error was sent and no Item with this source was sent; and when the read of one path
fails the Items sent are those of the list without that path. -/
theorem one_publish_per_path (w : World) (c0 : Int) (path0 path : String)
    (fileList : List String) (hflag : w.getString = .ok path)
    (hscan : getFiles w.join path w.root = .ok fileList) :
    (∀ sched s, run w (State.init c0 path0) sched = some s →
      s.items.length + s.errs.length ≤ fileList.length ∧
      ∃ more s1, run w s more = some s1 ∧ s1.quiescent = true) ∧
    (∀ sched s, run w (State.init c0 path0) sched = some s → s.quiescent = true →
      s.items.Perm (itemsOf w.readFile fileList) ∧
      s.errs.Perm (errsOf w.readFile fileList) ∧
      s.items.length + s.errs.length = fileList.length ∧
      (∀ p ∈ fileList,
        (∃ b, w.readFile p = .ok b ∧ { Content := b, Source := p, ID := p } ∈ s.items) ∨
        (∃ e, w.readFile p = .error e ∧ e ∈ s.errs ∧ ∀ it ∈ s.items, it.Source ≠ p)) ∧
      (∀ l1 p l2 e, fileList = l1 ++ p :: l2 → w.readFile p = .error e →
        s.items.Perm (itemsOf w.readFile (l1 ++ l2)))) := by
  constructor
  · intro sched s hr
    refine ⟨?_, completes w s⟩
    have hinv := inv_reach w c0 path0 sched s hr
    have h1 := hinv.items_perm.length_eq
    have h2 := (errs_perm_of_flag_ok w c0 s path hinv hflag).length_eq
    have h3 := sent_length_le w s.units
    have h4 : s.units.length ≤ fileList.length := by
      rcases reach_scan_ok w c0 s path fileList hinv hflag hscan with
        h | h | ⟨r, g, h, hl, _⟩ | ⟨h, hl⟩
      · have := hinv.main_ok
        simp only [mainOk, h] at this
        simp [this.1]
      · have := hinv.main_ok
        simp only [mainOk, h] at this
        simp [this.1]
      · rw [hl]; simp
      · rw [hl]; simp
    omega
  · intro sched s hr hq
    have hinv := inv_reach w c0 path0 sched s hr
    obtain ⟨hmain, hmap, hpub⟩ := final_scan_ok w c0 s path fileList hinv hflag hscan hq
    obtain ⟨hit, her⟩ := published_items w s.units hpub
    rw [hmap] at hit her
    have hi : s.items.Perm (itemsOf w.readFile fileList) := by
      rw [← hit]; exact hinv.items_perm
    have he : s.errs.Perm (errsOf w.readFile fileList) := by
      rw [← her]; exact errs_perm_of_flag_ok w c0 s path hinv hflag
    refine ⟨hi, he, ?_, ?_, ?_⟩
    · rw [hi.length_eq, he.length_eq]
      exact itemsOf_errsOf_length w.readFile fileList
    · intro p hp
      cases hrd : w.readFile p with
      | ok b =>
          refine Or.inl ⟨b, rfl, ?_⟩
          exact hi.symm.subset ((mem_itemsOf w.readFile fileList _).2 ⟨p, hp, b, hrd, rfl⟩)
      | error e =>
          refine Or.inr ⟨e, rfl, he.symm.subset (mem_errsOf w.readFile fileList p e hp hrd), ?_⟩
          intro it hit2 hsrc
          obtain ⟨q, _, b, hb, hq2⟩ := (mem_itemsOf w.readFile fileList it).1 (hi.subset hit2)
          rw [hq2] at hsrc
          simp only at hsrc
          rw [hsrc, hrd] at hb
          cases hb
    · intro l1 p l2 e hl hrd
      rw [← itemsOf_remove w.readFile l1 l2 p e hrd, ← hl]
      exact hi

theorem one_publish_per_path_witness :
    sampleWorld.getString = .ok "repo" ∧
    getFiles sampleWorld.join "repo" sampleWorld.root = .ok ["repo/a.txt", "repo/sub/.git"] ∧
    ((∀ sched s, run sampleWorld (State.init 0 "") sched = some s →
      s.items.length + s.errs.length ≤ ["repo/a.txt", "repo/sub/.git"].length ∧
      ∃ more s1, run sampleWorld s more = some s1 ∧ s1.quiescent = true) ∧
    (∀ sched s, run sampleWorld (State.init 0 "") sched = some s → s.quiescent = true →
      s.items.Perm (itemsOf sampleWorld.readFile ["repo/a.txt", "repo/sub/.git"]) ∧
      s.errs.Perm (errsOf sampleWorld.readFile ["repo/a.txt", "repo/sub/.git"]) ∧
      s.items.length + s.errs.length = ["repo/a.txt", "repo/sub/.git"].length ∧
      (∀ p ∈ ["repo/a.txt", "repo/sub/.git"],
        (∃ b, sampleWorld.readFile p = .ok b ∧
          { Content := b, Source := p, ID := p } ∈ s.items) ∨
        (∃ e, sampleWorld.readFile p = .error e ∧ e ∈ s.errs ∧
          ∀ it ∈ s.items, it.Source ≠ p)) ∧
      (∀ l1 p l2 e, ["repo/a.txt", "repo/sub/.git"] = l1 ++ p :: l2 →
        sampleWorld.readFile p = .error e →
        s.items.Perm (itemsOf sampleWorld.readFile (l1 ++ l2))))) :=
  ⟨rfl, rfl, one_publish_per_path sampleWorld 0 "" "repo" ["repo/a.txt", "repo/sub/.git"] rfl rfl⟩

/-- C6: in every state of an invocation whose scan gave `N` candidate paths, the counter
is never below its starting value `c0` (zero for an invocation alone on the wait group);
`getFiles` has run its `wg.Done()` only if all `N` goroutines were registered and
started; and once the run handler has registered the walk, the counter is back at `c0`
only if `getFiles` has run its `wg.Done()`, all `N` per-file registrations have happened
and each of the `N` goroutines has run the `wg.Done()` of its `getItem`. -/
theorem counter_zero_only_when_all_done (w : World) (c0 : Int) (path0 path : String)
    (fileList : List String) (hflag : w.getString = .ok path)
    (hscan : getFiles w.join path w.root = .ok fileList) :
    ∀ sched s, run w (State.init c0 path0) sched = some s →
      c0 ≤ s.counter ∧
      (s.main = .finished →
        s.units.length = fileList.length ∧ s.units.map FileUnit.filePath = fileList ∧
        s.adds = fileList.length + 1) ∧
      (s.main ≠ .handler → s.counter = c0 →
        s.main = .finished ∧ s.units.length = fileList.length ∧
        s.adds = fileList.length + 1 ∧ ∀ u ∈ s.units, u.pc.isDone = true) := by
  intro sched s hr
  have hinv := inv_reach w c0 path0 sched s hr
  have hc := hinv.counter_eq
  have ha := hinv.adds_eq
  have hd := hinv.dones_eq
  have hle : s.units.countP (fun u => u.pc.isDone) ≤ s.units.length := List.countP_le_length _
  have hm := hinv.main_ok
  rcases reach_scan_ok w c0 s path fileList hinv hflag hscan with
    h | h | ⟨r, g, h, hl, _⟩ | ⟨h, hl⟩
  · simp only [mainOk, h] at hm
    rw [h] at ha hd
    simp only [mainAdds, mainDones] at ha hd
    refine ⟨by omega, by simp [h], fun hne => absurd h hne⟩
  · simp only [mainOk, h] at hm
    rw [h] at ha hd
    simp only [mainAdds, mainDones, hm.1, List.length_nil, List.countP_nil] at ha hd
    refine ⟨by omega, by simp [h], fun _ hz => ?_⟩
    omega
  · rw [h] at ha hd
    simp only [mainAdds, mainDones] at ha hd
    have h1 : 1 ≤ (if g = true then 2 else 1 : Nat) := by split <;> omega
    refine ⟨by omega, by simp [h], fun _ hz => ?_⟩
    omega
  · rw [h] at ha hd
    simp only [mainAdds, mainDones] at ha hd
    have hlen : s.units.length = fileList.length := by rw [hl, List.length_map]
    refine ⟨by omega, fun _ => ⟨hlen, hl.symm, by omega⟩, fun _ hz => ?_⟩
    refine ⟨h, hlen, by omega, ?_⟩
    exact (countP_le_all s.units).1 (by omega)

theorem counter_zero_only_when_all_done_witness :
    sampleWorld.getString = .ok "repo" ∧
    getFiles sampleWorld.join "repo" sampleWorld.root = .ok ["repo/a.txt", "repo/sub/.git"] ∧
    ∀ sched s, run sampleWorld (State.init 0 "") sched = some s →
      0 ≤ s.counter ∧
      (s.main = .finished →
        s.units.length = ["repo/a.txt", "repo/sub/.git"].length ∧
        s.units.map FileUnit.filePath = ["repo/a.txt", "repo/sub/.git"] ∧
        s.adds = ["repo/a.txt", "repo/sub/.git"].length + 1) ∧
      (s.main ≠ .handler → s.counter = 0 →
        s.main = .finished ∧ s.units.length = ["repo/a.txt", "repo/sub/.git"].length ∧
        s.adds = ["repo/a.txt", "repo/sub/.git"].length + 1 ∧
        ∀ u ∈ s.units, u.pc.isDone = true) :=
  ⟨rfl, rfl,
    counter_zero_only_when_all_done sampleWorld 0 "" "repo" ["repo/a.txt", "repo/sub/.git"]
      rfl rfl⟩

/-- C2 fails on the code: `wg.Done()` is deferred inside `getItem`, so it runs before the
goroutine sends its result.  On the sample tree, after the main thread has finished and
both goroutines have returned from `getItem`, the counter is zero while nothing has
been sent on either channel. -/
theorem counter_zero_before_publish :
    ∃ s, run sampleWorld (State.init 0 "")
        [.main, .main, .main, .main, .main, .main, .main,
         .unit 0, .unit 0, .unit 1, .unit 1] = some s ∧
      s.main = .finished ∧ s.counter = 0 ∧ s.items = [] ∧ s.errs = [] ∧
      s.units.map (fun u => (u.filePath, u.pc.isDone, u.pc.isPublished)) =
        [("repo/a.txt", true, false), ("repo/sub/.git", true, false)] :=
  ⟨_, rfl, rfl, rfl, rfl, rfl, rfl⟩

end Repository
